import Mathlib

/-!
# Verification of the datatable parsing engine spec against its sources

Part 1 embeds the Python-binding helpers of `c/utils/pyobj.cc` (real code in
the repository). Part 2 embeds the chunked CSV parsing engine whose interface
is declared in `src/core/read/parse_context.h`; the member-function bodies are
not part of the visible sources, so those definitions are modelled from the
spec, as marked in their doc comments.
-/

namespace DT

/-! ## Part 1: the PyObj binding layer (`c/utils/pyobj.cc`) -/

/-- The kinds of C++ exception thrown by the `PyObj` methods in
`c/utils/pyobj.cc`: `PyError`, `TypeError`, `ValueError` and `RuntimeError`. -/
inductive PyErrKind where
  | pyError
  | typeError
  | valueError
  | runtimeError
deriving DecidableEq, Repr

/-- A CPython object as observed through the `PyObj` wrapper. A unicode object
is modelled by the result of encoding it in strict utf-8 (`none` when the
encoding raises an exception); a bytes object by its byte content; `other_`
stands for any object of a type not distinguished by the wrapped methods
(floats, dicts, ...). -/
inductive PyVal where
  | none_ : PyVal
  | true_ : PyVal
  | false_ : PyVal
  | int_ : Int → PyVal
  | str_ : Option (List Char) → PyVal
  | bytes_ : List Char → PyVal
  | list_ : List PyVal → PyVal
  | tuple_ : List PyVal → PyVal
  | other_ : PyVal

/-- `GETNA<int8_t>` in datatable: the int8 missing-value sentinel `INT8_MIN`. -/
def na_int8 : Int := -128

/-- `GETNA<int64_t>` in datatable: the int64 missing-value sentinel `INT64_MIN`. -/
def na_int64 : Int := -(2 ^ 63)

/-- `PyLong_Check`: true for Python ints; Python bools are a subtype of int,
so it also accepts `True` and `False`. -/
def pyLong_Check : PyVal → Bool
  | .int_ _ => true
  | .true_ => true
  | .false_ => true
  | _ => false

/-- `PyLong_AsInt64` as used by `PyObj::as_int64`: exact on values within the
int64 range (the error path for wider Python ints returns `-1` with a pending
CPython error flag, which the calling code does not inspect). -/
def pyLong_AsInt64 : PyVal → Int
  | .int_ n => if -(2 ^ 63) ≤ n ∧ n < 2 ^ 63 then n else -1
  | .true_ => 1
  | .false_ => 0
  | _ => 0

/-- `PyObj::as_bool` (pyobj.cc lines 118-123): `True ↦ 1`, `False ↦ 0`,
`None ↦ GETNA<int8_t>`, everything else raises `ValueError`. -/
def as_bool : PyVal → Except PyErrKind Int
  | .true_ => .ok 1
  | .false_ => .ok 0
  | .none_ => .ok na_int8
  | _ => .error .valueError

/-- `PyObj::as_int64` (pyobj.cc lines 126-130). -/
def as_int64 (v : PyVal) : Except PyErrKind Int :=
  if pyLong_Check v then .ok (pyLong_AsInt64 v)
  else
    match v with
    | .none_ => .ok na_int64
    | _ => .error .valueError

/-- The C `static_cast<int32_t>` applied to an `int64_t` value:
two's-complement truncation to the low 32 bits. -/
def castInt64ToInt32 (v : Int) : Int :=
  if v % 2 ^ 32 < 2 ^ 31 then v % 2 ^ 32 else v % 2 ^ 32 - 2 ^ 32

/-- `PyObj::as_int32` (pyobj.cc lines 133-135):
`static_cast<int32_t>(as_int64())`. -/
def as_int32 (v : PyVal) : Except PyErrKind Int :=
  (as_int64 v).map castInt64ToInt32

/-- Conversion of a single list/tuple item inside `PyObj::as_cstringlist`
(pyobj.cc lines 243-259): a unicode item is encoded (raising `PyError` when
the encoding fails), a bytes item is copied, anything else raises
`TypeError`. -/
def itemToCString : PyVal → Except PyErrKind (List Char)
  | .str_ (some s) => .ok s
  | .str_ none => .error .pyError
  | .bytes_ s => .ok s
  | _ => .error .typeError

/-- The C heap as seen by `as_cstringlist`: allocations are numbered
consecutively and `live` lists the currently allocated blocks. -/
structure Heap where
  next : Nat
  live : List Nat
deriving DecidableEq, Repr

def Heap.alloc (h : Heap) : Nat × Heap := (h.next, ⟨h.next + 1, h.next :: h.live⟩)

def Heap.free (h : Heap) (i : Nat) : Heap := ⟨h.next, h.live.erase i⟩

/-- A well-formed heap never lists an id that was not allocated yet. -/
def Heap.WF (h : Heap) : Prop := ∀ i ∈ h.live, i < h.next

/-- The item loop of `as_cstringlist` (pyobj.cc lines 242-260): allocates one
C string per item, stopping at the first failing item. It returns the error
(if any), the slots filled so far (the non-null entries of `res`), and the
heap after the loop. -/
def buildSlots : List PyVal → Heap → Option PyErrKind × List (Nat × List Char) × Heap
  | [], h => (none, [], h)
  | item :: rest, h =>
    match itemToCString item with
    | .error e => (some e, [], h)
    | .ok s =>
      let idh := h.alloc
      let r := buildSlots rest idh.2
      (r.1, (idh.1, s) :: r.2.1, r.2.2)

/-- The `catch` cleanup loop of `as_cstringlist` (pyobj.cc lines 262-266):
frees every non-null `res[i]`. -/
def cleanupSlots (slots : List (Nat × List Char)) (h : Heap) : Heap :=
  slots.foldl (fun hh p => hh.free p.1) h

/-- The list/tuple body of `PyObj::as_cstringlist` (pyobj.cc lines 233-267):
allocate the `char*` array (`count + 1` slots, all null-initialized), fill it
item by item, and on an exception free every filled slot plus the array before
re-throwing. On success the returned array is the filled slots followed by the
null terminator `res[count]`. -/
def cstringlistItems (items : List PyVal) (h : Heap) :
    Except PyErrKind (Option (Nat × List (Option (Nat × List Char)))) × Heap :=
  let a := h.alloc
  let r := buildSlots items a.2
  match r.1 with
  | none => (.ok (some (a.1, r.2.1.map some ++ [none])), r.2.2)
  | some e => (.error e, (cleanupSlots r.2.1 r.2.2).free a.1)

/-- `PyObj::as_cstringlist` (pyobj.cc lines 229-270): `None` maps to the null
pointer, a list or tuple is converted element-wise, anything else raises
`TypeError`. -/
def as_cstringlist (v : PyVal) (h : Heap) :
    Except PyErrKind (Option (Nat × List (Option (Nat × List Char)))) × Heap :=
  match v with
  | .none_ => (.ok none, h)
  | .list_ items => cstringlistItems items h
  | .tuple_ items => cstringlistItems items h
  | _ => (.error .typeError, h)

/-- The error raised by the first failing item of a list, if any. -/
def firstItemError : List PyVal → Option PyErrKind
  | [] => none
  | it :: rest =>
    match itemToCString it with
    | .error e => some e
    | .ok _ => firstItemError rest

/-- The successfully converted contents of a list of items. -/
def okContents (items : List PyVal) : List (List Char) :=
  items.filterMap (fun it => (itemToCString it).toOption)

/-! ## Part 2: the parsing engine

`src/core/read/parse_context.h` declares the `ParseContext` interface
(`ch`, `eof`, `target`, separators, quote rule, `countfields`,
`next_good_line_start`, `end_NA_string`, ...) but the member bodies are not
among the visible sources. The definitions below are therefore modelled from
the spec, faithful to its description of each operation; each doc comment
records this. -/

/-- Modelled from the spec: the four supported quote rules (ParseConfig):
no-quoting, quoted-with-escape-doubling, quoted-with-backslash-escape and
quoted-minimal. -/
inductive QuoteRule where
  | doubled
  | backslash
  | minimal
  | noQuote
deriving DecidableEq, Repr

/-- Modelled from the spec: the shared read-only parse configuration
(the configuration members of `ParseContext`: `sep`, `quote`, `quoteRule`,
`dec`, `whiteChar`, `strip_whitespace`, `blank_is_na`, `cr_is_newline`,
`NAstrings`), plus the caller-configured boolean literal spellings. -/
structure Config where
  sep : Char
  quote : Char
  quoteRule : QuoteRule
  dec : Char
  whiteChar : Char
  strip_whitespace : Bool
  blank_is_na : Bool
  cr_is_newline : Bool
  NAstrings : List (List Char)
  boolTrueStrings : List (List Char)
  boolFalseStrings : List (List Char)
deriving DecidableEq, Repr

/-- A line terminator byte: `\n`, or a lone `\r` when `cr_is_newline` is
set (spec: line scanner edge-case policies). -/
def isNewlineByte (cfg : Config) (c : Char) : Bool :=
  c == '\n' || (cfg.cr_is_newline && c == '\r')

/-- A configuration whose separator and quote characters do not collide with
line terminators or each other. -/
def Config.Valid (cfg : Config) : Prop :=
  isNewlineByte cfg cfg.quote = false ∧
  isNewlineByte cfg cfg.sep = false ∧
  cfg.sep ≠ cfg.quote

/-- The state of the quoted-field scanner: whether the scan position is
inside a quoted field, and whether the next character is escaped (backslash
rule only). -/
structure QState where
  inQuote : Bool
  escaped : Bool
deriving DecidableEq, Repr

def qinit : QState := ⟨false, false⟩

/-- Modelled from the spec: one step of the quoted-field automaton for the
active quote rule. Under the doubling and minimal rules a quote character
toggles the in-quote state (a doubled quote toggles out and straight back
in); under the backslash rule a backslash inside a quoted field escapes the
following character. -/
def qstep (cfg : Config) (st : QState) (c : Char) : QState :=
  match cfg.quoteRule with
  | .noQuote => st
  | .backslash =>
    if st.inQuote then
      if st.escaped then ⟨true, false⟩
      else if c = '\\' then ⟨true, true⟩
      else if c = cfg.quote then ⟨false, false⟩
      else ⟨true, false⟩
    else if c = cfg.quote then ⟨true, false⟩
    else ⟨false, false⟩
  | _ =>
    if c = cfg.quote then ⟨!st.inQuote, false⟩ else st

/-- The quote state reached after scanning the first `p` bytes of the
input. -/
def qstateAt (cfg : Config) (s : List Char) (p : Nat) : QState :=
  (s.take p).foldl (qstep cfg) qinit

/-- Position `p` lies immediately after a line terminator that is not inside
a quoted field: the byte at `p - 1` is a terminator and the quote state
before it is not in-quote. Such positions are exactly the safe line starts
of the input. -/
def isTermEnd (cfg : Config) (s : List Char) (p : Nat) : Bool :=
  match p with
  | 0 => false
  | Nat.succ q =>
    match s[q]? with
    | some c => isNewlineByte cfg c && !(qstateAt cfg s q).inQuote
    | none => false

/-- Modelled from the spec: `ParseContext::next_good_line_start` — advance the
candidate chunk start forward until it lands immediately after a line
terminator that is not inside a quoted field; if no such position exists
before the end of the input, the end of the input is returned (an empty
chunk). -/
def next_good_line_start (cfg : Config) (s : List Char) (b : Nat) : Nat :=
  if s.length ≤ b then s.length
  else if isTermEnd cfg s b then b
  else next_good_line_start cfg s (b + 1)
termination_by s.length - b
decreasing_by
  simp only [not_le] at *
  omega

/-- Modelled from the spec: split one record into its separator-delimited
fields, honouring the quote rule — separators and terminators inside a
quoted field are field content. Scanning stops at the first unquoted line
terminator; the terminator is not part of any field. -/
def splitFields (cfg : Config) (st : QState) : List Char → List (List Char)
  | [] => [[]]
  | c :: rest =>
    if !st.inQuote && isNewlineByte cfg c then [[]]
    else if !st.inQuote && (c == cfg.sep) then [] :: splitFields cfg st rest
    else
      match splitFields cfg (qstep cfg st c) rest with
      | [] => [[c]]
      | f :: fs => (c :: f) :: fs

/-- A parsed row: the sequence of raw fields of one record. -/
abbrev Row := List (List Char)

/-- The row produced by the line scanner for the record spanning bytes
`[p, e)` of the input. -/
def rowOf (cfg : Config) (s : List Char) (p e : Nat) : Row :=
  splitFields cfg qinit ((s.take e).drop p)

/-- Modelled from the spec: the line scanner run by one worker — parse
records one after another starting at position `p`, stopping once the next
record would start at or past the chunk bound `b` (the worker may overshoot
`b` to finish the record it started before `b`, reporting the corrected
end). The bound of the final chunk is the input length. -/
def parseRowsBetween (cfg : Config) (s : List Char) (p b : Nat) : List Row :=
  if b ≤ p then []
  else if s.length ≤ p then []
  else
    let e := max (p + 1) (next_good_line_start cfg s (p + 1))
    rowOf cfg s p e :: parseRowsBetween cfg s e b
termination_by b - p
decreasing_by
  have h1 : p + 1 ≤ max (p + 1) (next_good_line_start cfg s (p + 1)) :=
    Nat.le_max_left _ _
  simp only [not_le] at *
  omega

/-- Single-threaded parse: one chunk covering the whole byte range. -/
def wholeRows (cfg : Config) (s : List Char) : List Row :=
  parseRowsBetween cfg s 0 s.length

/-- Modelled from the spec: the coordinator resynchronizes every nominal
chunk boundary with `next_good_line_start` (the first chunk always starts at
the true beginning of the range). -/
def adjustBoundaries (cfg : Config) (s : List Char) (bs : List Nat) : List Nat :=
  bs.map (next_good_line_start cfg s)

/-- The per-chunk row lists: chunk `i` spans from adjusted start `i` to
adjusted start `i + 1` (the final chunk runs to the end of the input). -/
def chunkRowsList (cfg : Config) (s : List Char) : Nat → List Nat → List (List Row)
  | p, [] => [parseRowsBetween cfg s p s.length]
  | p, a :: rest => parseRowsBetween cfg s p a :: chunkRowsList cfg s a rest

/-- Multi-threaded parse: rows of all chunks concatenated in
chunk-start-offset order. -/
def chunkedRows (cfg : Config) (s : List Char) (bs : List Nat) : List Row :=
  (chunkRowsList cfg s 0 (adjustBoundaries cfg s bs)).flatten

/-- The per-chunk results tagged with their chunk index, in chunk order. -/
def indexedChunks (cfg : Config) (s : List Char) (bs : List Nat) : List (Nat × List Row) :=
  (chunkRowsList cfg s 0 (adjustBoundaries cfg s bs)).enum

/-- Modelled from the spec: the coordinator's merge — buffer completed chunk
results keyed by chunk index and concatenate them in chunk-start-offset
order once every chunk has reported; `none` while any chunk is missing. -/
def mergeByIndex (n : Nat) (done : List (Nat × List Row)) : Option (List Row) :=
  if ((List.range n).map (fun i => done.find? (fun q => q.1 == i))).all Option.isSome then
    some ((((List.range n).map (fun i => done.find? (fun q => q.1 == i))).filterMap
      (fun o => o.map Prod.snd)).flatten)
  else none

/-- Modelled from the spec: `countfields` on the remainder of a line — `0`
at an immediate line terminator or at the end of input, otherwise the number
of separator-delimited fields found by scanning the line (without writing
any values). -/
def countfieldsFrom (cfg : Config) (cs : List Char) : Nat :=
  match cs with
  | [] => 0
  | c :: _ => if isNewlineByte cfg c then 0 else (splitFields cfg qinit cs).length

/-- A line with the given separator-delimited fields: the fields joined by
the separator (the statement-side constructor used to state the
`countfields` contract). -/
def joinFields (sep : Char) : List (List Char) → List Char
  | [] => []
  | [f] => f
  | f :: rest => f ++ sep :: joinFields sep rest

/-- Modelled from the spec: the tagged field buffer `field64` — a slot
holding exactly one of missing, boolean, 32/64-bit integer, double or a
string reference (the model stores the referenced bytes themselves; the C
struct stores an offset/length pair relative to the anchor). -/
inductive Field64 where
  | missing
  | boolv (b : Bool)
  | int32 (n : Int)
  | int64 (n : Int)
  | float64 (q : Rat)
  | str (s : List Char)
deriving DecidableEq, Repr

/-- The per-worker mutable part of `ParseContext` (parse_context.h lines
38-96): the cursor `ch`, the exclusive read bound `eof`, the output write
position `target` (modelled as the list of values written so far) and the
string `anchor`. The shared read-only configuration members live in
`Config`. -/
structure ParseContext where
  ch : Nat
  eof : Nat
  target : List Field64
  anchor : Nat
deriving DecidableEq, Repr

/-- A byte counted as whitespace to strip: `whiteChar` itself, or both `' '`
and `'\t'` when `whiteChar` is 0 (parse_context.h lines 59-61). -/
def isWhiteChar (cfg : Config) (c : Char) : Bool :=
  if cfg.whiteChar = Char.ofNat 0 then c == ' ' || c == '\t' else c == cfg.whiteChar

/-- Modelled from the spec: `skip_whitespace` — advance past whitespace
bytes, never beyond `eof`. -/
def skipWhite (cfg : Config) (input : List Char) (eofp i : Nat) : Nat :=
  if i < eofp then
    match input[i]? with
    | some c => if isWhiteChar cfg c then skipWhite cfg input eofp (i + 1) else i
    | none => i
  else i
termination_by eofp - i
decreasing_by omega

/-- Modelled from the spec: `at_end_of_field` — the cursor sits on a field
separator, a line terminator, or at `eof`. -/
def atEndOfField (cfg : Config) (input : List Char) (eofp i : Nat) : Bool :=
  if i < eofp then
    match input[i]? with
    | some c => (c == cfg.sep) || isNewlineByte cfg c
    | none => true
  else true

/-- The byte at position `i` (readable, i.e. before `eofp`) equals `c`. -/
def isCharAt (input : List Char) (eofp i : Nat) (c : Char) : Bool :=
  decide (i < eofp) && (input[i]? == some c)

/-- Read an optional leading sign; returns (negative?, next position). -/
def readSign (input : List Char) (eofp i : Nat) : Bool × Nat :=
  if isCharAt input eofp i '-' then (true, i + 1)
  else if isCharAt input eofp i '+' then (false, i + 1)
  else (false, i)

/-- Scan a run of ASCII digits accumulating its decimal value; returns the
accumulated value and the position one past the run. -/
def scanDigits (input : List Char) (eofp : Nat) (i : Nat) (acc : Nat) : Nat × Nat :=
  if i < eofp then
    match input[i]? with
    | some c =>
      if c.isDigit then scanDigits input eofp (i + 1) (acc * 10 + (c.toNat - 48))
      else (acc, i)
    | none => (acc, i)
  else (acc, i)
termination_by eofp - i
decreasing_by omega

/-- Scan forward to the end of the current field: the first unquoted field
separator or line terminator, or `eof`; returns the stop position and the
quote state there. -/
def scanFieldEnd (cfg : Config) (input : List Char) (eofp : Nat) (st : QState) (i : Nat) :
    Nat × QState :=
  if i < eofp then
    match input[i]? with
    | some c =>
      if !st.inQuote && (c == cfg.sep || isNewlineByte cfg c) then (i, st)
      else scanFieldEnd cfg input eofp (qstep cfg st c) (i + 1)
    | none => (i, st)
  else (i, st)
termination_by eofp - i
decreasing_by omega

/-- Find the first configured literal that matches at position `i` and ends
at an end-of-field position; returns the position one past the match. -/
def litMatchEnd (cfg : Config) (input : List Char) (eofp i : Nat) :
    List (List Char) → Option Nat
  | [] => none
  | lit :: rest =>
    if decide (i + lit.length ≤ eofp) && ((input.drop i).take lit.length == lit)
        && atEndOfField cfg input eofp (i + lit.length) then
      some (i + lit.length)
    else litMatchEnd cfg input eofp i rest

/-- Modelled from the spec: the boolean field parser — matches one of the
configured boolean literals; on no match, fails without advancing `ch`. -/
def parse_bool (cfg : Config) (input : List Char) (ctx : ParseContext) :
    Bool × ParseContext :=
  match litMatchEnd cfg input ctx.eof ctx.ch cfg.boolTrueStrings with
  | some j => (true, { ctx with ch := j, target := ctx.target ++ [.boolv true] })
  | none =>
    match litMatchEnd cfg input ctx.eof ctx.ch cfg.boolFalseStrings with
    | some j => (true, { ctx with ch := j, target := ctx.target ++ [.boolv false] })
    | none => (false, ctx)

/-- Modelled from the spec: the integer field parser for a target width with
value range `[lo, hi]` — optional whitespace when `strip_whitespace` is set,
optional sign, a run of ASCII digits; fails (leaving the context untouched)
when there are no digits, when the field does not end at an end-of-field
position, or when the value overflows the target range. -/
def parse_int_width (mk : Int → Field64) (lo hi : Int) (cfg : Config)
    (input : List Char) (ctx : ParseContext) : Bool × ParseContext :=
  let i0 := if cfg.strip_whitespace then skipWhite cfg input ctx.eof ctx.ch else ctx.ch
  let sg := readSign input ctx.eof i0
  let dg := scanDigits input ctx.eof sg.2 0
  let i3 := if cfg.strip_whitespace then skipWhite cfg input ctx.eof dg.2 else dg.2
  let value : Int := if sg.1 then -(dg.1 : Int) else (dg.1 : Int)
  if decide (sg.2 < dg.2) && atEndOfField cfg input ctx.eof i3
      && decide (lo ≤ value) && decide (value ≤ hi) then
    (true, { ctx with ch := i3, target := ctx.target ++ [mk value] })
  else (false, ctx)

/-- Modelled from the spec: the double field parser — optional sign, digits,
optional configured decimal separator and fractional digits, optional
exponent. The value is modelled as the exact rational the decimal literal
denotes (locale-specific infinity/NaN spellings are not modelled). -/
def parse_double (cfg : Config) (input : List Char) (ctx : ParseContext) :
    Bool × ParseContext :=
  let i0 := if cfg.strip_whitespace then skipWhite cfg input ctx.eof ctx.ch else ctx.ch
  let sg := readSign input ctx.eof i0
  let ip := scanDigits input ctx.eof sg.2 0
  let hasDec := isCharAt input ctx.eof ip.2 cfg.dec
  let fr := if hasDec then scanDigits input ctx.eof (ip.2 + 1) 0 else (0, ip.2)
  let flen := if hasDec then fr.2 - (ip.2 + 1) else 0
  let hasExp := isCharAt input ctx.eof fr.2 'e' || isCharAt input ctx.eof fr.2 'E'
  let es := if hasExp then readSign input ctx.eof (fr.2 + 1) else (false, fr.2)
  let eg := if hasExp then scanDigits input ctx.eof es.2 0 else (0, es.2)
  let expOK := !hasExp || decide (es.2 < eg.2)
  let ex : Int := if es.1 then -(eg.1 : Int) else (eg.1 : Int)
  let i5 := if cfg.strip_whitespace then skipWhite cfg input ctx.eof eg.2 else eg.2
  let mant : Rat := ((ip.1 : Rat) * (10 : Rat) ^ flen + (fr.1 : Rat)) / (10 : Rat) ^ flen
  let value : Rat := (if sg.1 then -mant else mant) * (10 : Rat) ^ ex
  if (decide (sg.2 < ip.2) || decide (0 < flen)) && expOK
      && atEndOfField cfg input ctx.eof i5 then
    (true, { ctx with ch := i5, target := ctx.target ++ [.float64 value] })
  else (false, ctx)

/-- Modelled from the spec: the string field parser — scans to the field
separator, a line terminator or `eof`, treating both as field content inside
a quoted region per the active quote rule; on success writes the scanned
byte range (a borrow from the input buffer). It fails only when the field's
quote never closes before `eof`. -/
def parse_string (cfg : Config) (input : List Char) (ctx : ParseContext) :
    Bool × ParseContext :=
  let fe := scanFieldEnd cfg input ctx.eof qinit ctx.ch
  if fe.2.inQuote then (false, ctx)
  else
    (true, { ctx with
             ch := fe.1
             target := ctx.target ++ [.str ((input.take fe.1).drop ctx.ch)] })

/-- The five type-specific field parsers of the parser set. -/
inductive ParserKind where
  | boolk
  | int32k
  | int64k
  | float64k
  | strk
deriving DecidableEq, Repr

/-- Dispatch to the field parser for a target type. -/
def runParser : ParserKind → Config → List Char → ParseContext → Bool × ParseContext
  | .boolk, cfg, input, ctx => parse_bool cfg input ctx
  | .int32k, cfg, input, ctx => parse_int_width .int32 (-(2 ^ 31)) (2 ^ 31 - 1) cfg input ctx
  | .int64k, cfg, input, ctx => parse_int_width .int64 (-(2 ^ 63)) (2 ^ 63 - 1) cfg input ctx
  | .float64k, cfg, input, ctx => parse_double cfg input ctx
  | .strk, cfg, input, ctx => parse_string cfg input ctx

/-- Modelled from the spec: `ParseContext::end_NA_string` — the length of the
longest configured NA marker that is a prefix of the given bytes (`0`, i.e.
the unmoved pointer, when none matches). -/
def end_NA_string (cfg : Config) (cs : List Char) : Nat :=
  cfg.NAstrings.foldl
    (fun best na => if na.isPrefixOf cs && decide (best < na.length) then na.length else best) 0

/-- Interpret a whole raw field as one target type by running the type's
field parser over exactly the field's bytes. -/
def typeParseField (k : ParserKind) (cfg : Config) (raw : List Char) : Option Field64 :=
  let (ok, ctx) := runParser k cfg raw ⟨0, raw.length, [], 0⟩
  if ok then ctx.target.head? else none

/-- Modelled from the spec: the line scanner's interpretation of one
extracted raw field — a blank field is the missing sentinel exactly when
`blank_is_na` is set (otherwise the empty string for the string type and a
failure for the other types); a field wholly matched by `end_NA_string` is
the missing sentinel regardless of target type; everything else is handed to
the target type's parser. -/
def parseFieldValue (cfg : Config) (k : ParserKind) (raw : List Char) : Option Field64 :=
  if raw.length = 0 then
    if cfg.blank_is_na then some .missing
    else
      match k with
      | .strk => some (.str [])
      | _ => none
  else if end_NA_string cfg raw = raw.length then some .missing
  else typeParseField k cfg raw

/-- A column's inferred type, in promotion order. -/
inductive ColType where
  | boolT
  | int32T
  | int64T
  | float64T
  | strT
deriving DecidableEq, Repr

def typeRank : ColType → Nat
  | .boolT => 0
  | .int32T => 1
  | .int64T => 2
  | .float64T => 3
  | .strT => 4

/-- Type promotion: the wider of two inferred types. -/
def typeJoin (a b : ColType) : ColType := if typeRank a ≤ typeRank b then b else a

/-- The narrowest type that parses a raw field (string as the fallback). -/
def narrowestType (cfg : Config) (raw : List Char) : ColType :=
  if (parseFieldValue cfg .boolk raw).isSome then .boolT
  else if (parseFieldValue cfg .int32k raw).isSome then .int32T
  else if (parseFieldValue cfg .int64k raw).isSome then .int64T
  else if (parseFieldValue cfg .float64k raw).isSome then .float64T
  else .strT

/-- Column-wise join of two rows' types (`fill` policy: a row shorter than
the other leaves the extra columns as they were). -/
def joinTypes : List ColType → List ColType → List ColType
  | [], ts => ts
  | ts, [] => ts
  | a :: t1, b :: t2 => typeJoin a b :: joinTypes t1 t2

/-- Modelled from the spec: the per-column inferred types of a row sequence —
the promotion-join over all rows of each field's narrowest type. -/
def inferTypes (cfg : Config) (rows : List Row) : List ColType :=
  rows.foldl (fun acc row => joinTypes acc (row.map (narrowestType cfg))) []

/-- `ParseContext::countfields`: count the fields of the line at the cursor
without writing any values — the context (in particular `target`) is
untouched. -/
def ParseContext.countfields (cfg : Config) (input : List Char) (ctx : ParseContext) :
    Nat × ParseContext :=
  (countfieldsFrom cfg ((input.take ctx.eof).drop ctx.ch), ctx)

/-- Modelled from the spec: the chunk coordinator's phases —
Unsplit → Sampling → Dispatched → Merged → Done, with Failed reachable from
any non-terminal phase. -/
inductive Phase where
  | unsplit
  | sampling
  | dispatched
  | merged
  | done
  | failed
deriving DecidableEq, Repr

/-- Modelled from the spec: the coordinator's state — its phase, the number
of dispatched chunks, the per-chunk results reported so far, the merged
buffer, and what the sink has been handed. -/
structure CoState where
  phase : Phase
  nchunks : Nat
  completed : List (Nat × List Row)
  mergedRows : Option (List Row)
  sinkRows : Option (List Row)
deriving DecidableEq, Repr

/-- Events driving the coordinator: sampling, splitting into `n` chunks, a
worker reporting chunk `i`, a failure (any error under an abort policy), the
merge barrier, and handing the merged output to the sink. -/
inductive CoEvent where
  | sample
  | split (n : Nat)
  | chunkDone (i : Nat) (rows : List Row)
  | failure
  | mergeAll
  | emit
deriving DecidableEq, Repr

/-- Failure transition: the coordinator moves to Failed and the
already-merged partial output is discarded. -/
def coFail (st : CoState) : CoState := { st with phase := .failed, mergedRows := none }

/-- Modelled from the spec: one coordinator transition. The merge barrier
fires only once every dispatched chunk has reported; the sink is handed
output only by `emit` from the Merged phase; `done` and `failed` are
terminal. -/
def coStep (st : CoState) (ev : CoEvent) : CoState :=
  match st.phase, ev with
  | .failed, _ => st
  | .done, _ => st
  | _, .failure => coFail st
  | .unsplit, .sample => { st with phase := .sampling }
  | .sampling, .split n => { st with phase := .dispatched, nchunks := n }
  | .dispatched, .chunkDone i rows =>
    if i < st.nchunks then { st with completed := (i, rows) :: st.completed } else st
  | .dispatched, .mergeAll =>
    match mergeByIndex st.nchunks st.completed with
    | some rows => { st with phase := .merged, mergedRows := some rows }
    | none => st
  | .merged, .emit => { st with phase := .done, sinkRows := st.mergedRows }
  | _, _ => st

def coInit : CoState := ⟨.unsplit, 0, [], none, none⟩

/-- A full coordinator run from the initial state. -/
def coRun (evs : List CoEvent) : CoState := evs.foldl coStep coInit

/-- A concrete configuration used by the witnesses: comma separator, double
quote with escape doubling, `NA` marker, `true`/`false` boolean literals. -/
def demoConfig : Config :=
  ⟨',', '"', .doubled, '.', Char.ofNat 0, false, false, false,
   [['N', 'A']], [['t', 'r', 'u', 'e']], [['f', 'a', 'l', 's', 'e']]⟩

/-- A concrete three-line input used by the witnesses. -/
def demoInput : List Char := ['a', 'b', '\n', 'c', 'd', '\n', 'e', 'f', '\n']

/-- A concrete input whose quoted field spans a line terminator, used by the
witnesses. -/
def demoQuoted : List Char := ['a', ',', '"', 'x', '\n', 'y', '"', '\n', 'z', '\n']

/-- The decimal value of a run of ASCII digits (statement-side companion of
`scanDigits`). -/
def digitsVal (ds : List Char) : Nat :=
  ds.foldl (fun a c => a * 10 + (c.toNat - 48)) 0

/-- The well-behavedness contract of one field parser call: the cursor never
exceeds `eof`, `eof` is untouched, success leaves the cursor at an
end-of-field (next-field or next-line) position, and failure returns the
context unchanged. -/
abbrev ParserOK (cfg : Config) (input : List Char) (ctx : ParseContext)
    (res : Bool × ParseContext) : Prop :=
  res.2.ch ≤ ctx.eof ∧ res.2.eof = ctx.eof ∧
  (res.1 = true → atEndOfField cfg input ctx.eof res.2.ch = true) ∧
  (res.1 = false → res.2 = ctx)

/-- The coordinator's output-visibility invariant: before the Merged phase
(and in Failed) both the merged buffer and the sink are empty; in Merged the
buffer is exactly the index-ordered merge of the reported chunks and the
sink is still empty; in Done the sink holds exactly that merge. -/
def CoInv (st : CoState) : Prop :=
  match st.phase with
  | .merged =>
      st.mergedRows = mergeByIndex st.nchunks st.completed ∧ st.sinkRows = none
  | .done =>
      st.sinkRows = st.mergedRows ∧
      st.mergedRows = mergeByIndex st.nchunks st.completed
  | _ => st.mergedRows = none ∧ st.sinkRows = none

/-! ## Theorems -/

/-- **C8**: for every `PyObj` wrapping a Python int, `as_int32` returns the
`as_int64` value truncated to its low 32 bits (reduction modulo `2^32`,
re-signed into the int32 range), so an out-of-int32-range value wraps rather
than failing. -/
theorem as_int32_truncates (n : Int) (h1 : -(2 ^ 63) ≤ n) (h2 : n < 2 ^ 63) :
    as_int64 (PyVal.int_ n) = .ok n ∧
    as_int32 (PyVal.int_ n) = .ok (castInt64ToInt32 n) ∧
    castInt64ToInt32 n % 2 ^ 32 = n % 2 ^ 32 ∧
    (-(2 ^ 31) ≤ castInt64ToInt32 n ∧ castInt64ToInt32 n < 2 ^ 31) := by
  have hval : pyLong_AsInt64 (PyVal.int_ n) = n := by
    show (if -(2 ^ 63) ≤ n ∧ n < 2 ^ 63 then n else -1) = n
    exact if_pos ⟨h1, h2⟩
  have hA : as_int64 (PyVal.int_ n) = .ok n := by
    unfold as_int64
    rw [if_pos (show pyLong_Check (PyVal.int_ n) = true from rfl), hval]
  have e32 : (2 : Int) ^ 32 = 4294967296 := by norm_num
  have e31 : (2 : Int) ^ 31 = 2147483648 := by norm_num
  refine ⟨hA, ?_, ?_, ?_⟩
  · simp [as_int32, hA, Except.map]
  · unfold castInt64ToInt32
    rw [e32, e31]
    split <;> omega
  · unfold castInt64ToInt32
    rw [e32, e31]
    split <;> omega

/-- Witness for C8 at `n = 2^31`, a value outside the int32 range: the call
succeeds and wraps to `-(2^31)` instead of failing. -/
theorem as_int32_truncates_witness :
    as_int32 (PyVal.int_ (2 ^ 31)) = .ok (castInt64ToInt32 (2 ^ 31)) ∧
    castInt64ToInt32 (2 ^ 31) = -(2 ^ 31) :=
  ⟨(as_int32_truncates (2 ^ 31) (by norm_num) (by norm_num)).2.1, by decide⟩

/-- **C9**: `as_bool` returns 1 exactly when the wrapped object is Python
`True`, 0 exactly when it is `False`, the int8 missing sentinel exactly when
it is `None`, and raises `ValueError` for every other object; no other
outcome is possible. -/
theorem as_bool_cases (v : PyVal) :
    (as_bool v = .ok 1 ↔ v = .true_) ∧
    (as_bool v = .ok 0 ↔ v = .false_) ∧
    (as_bool v = .ok na_int8 ↔ v = .none_) ∧
    (as_bool v = .error .valueError ↔ v ≠ .true_ ∧ v ≠ .false_ ∧ v ≠ .none_) ∧
    (∀ e, as_bool v = .error e → e = .valueError) ∧
    (∀ m, as_bool v = .ok m → m = 1 ∨ m = 0 ∨ m = na_int8) := by
  cases v <;> simp [as_bool, na_int8]

/-- Witness for C9: a non-boolean object raises `ValueError` and `None`
yields the int8 missing sentinel. -/
theorem as_bool_cases_witness :
    as_bool (PyVal.int_ 5) = .error .valueError ∧ as_bool PyVal.none_ = .ok na_int8 :=
  ⟨(as_bool_cases (PyVal.int_ 5)).2.2.2.1.mpr (by simp),
   (as_bool_cases PyVal.none_).2.2.1.mpr rfl⟩

/-- `buildSlots` heap accounting: the filled slots carry the freshly
allocated consecutive ids, and the heap after the loop lists exactly those
ids (newest first) on top of the initial live list. -/
theorem buildSlots_heap (items : List PyVal) (h : Heap) :
    ((buildSlots items h).2.2).next = h.next + (buildSlots items h).2.1.length ∧
    (buildSlots items h).2.1.map Prod.fst =
      List.range' h.next (buildSlots items h).2.1.length ∧
    ((buildSlots items h).2.2).live =
      ((buildSlots items h).2.1.map Prod.fst).reverse ++ h.live := by
  induction items generalizing h with
  | nil => simp [buildSlots]
  | cons item rest ih =>
    cases hit : itemToCString item with
    | error e => simp [buildSlots, hit]
    | ok s =>
      obtain ⟨ih1, ih2, ih3⟩ := ih ⟨h.next + 1, h.next :: h.live⟩
      simp only [buildSlots, hit, Heap.alloc, List.map_cons, List.length_cons,
        List.reverse_cons, List.append_assoc, List.singleton_append] at ih1 ih2 ih3 ⊢
      refine ⟨by omega, ?_, ?_⟩
      · rw [List.range'_succ h.next _ 1]
        exact congrArg (h.next :: ·) ih2
      · exact ih3

/-- The item loop stops with exactly the error of the first failing item. -/
theorem buildSlots_err (items : List PyVal) (h : Heap) :
    (buildSlots items h).1 = firstItemError items := by
  induction items generalizing h with
  | nil => simp [buildSlots, firstItemError]
  | cons item rest ih =>
    cases hit : itemToCString item with
    | error e => simp [buildSlots, firstItemError, hit]
    | ok s => simp [buildSlots, firstItemError, hit, ih]

/-- When no item fails, the filled slots hold exactly the converted contents
of all items, in order. -/
theorem buildSlots_ok_contents (items : List PyVal) (h : Heap)
    (hok : (buildSlots items h).1 = none) :
    (buildSlots items h).2.1.map Prod.snd = okContents items ∧
    (buildSlots items h).2.1.length = items.length := by
  induction items generalizing h with
  | nil => simp [buildSlots, okContents]
  | cons item rest ih =>
    cases hit : itemToCString item with
    | error e => simp [buildSlots, hit] at hok
    | ok s =>
      simp only [buildSlots, hit] at hok ⊢
      obtain ⟨ih1, ih2⟩ := ih _ hok
      simp [List.map_cons, List.length_cons, okContents, List.filterMap_cons, hit,
        Except.toOption, ih1, ih2]

/-- The cleanup loop frees exactly the slots' allocations: starting from a
heap whose live list is the slot ids (newest first) on top of `rest0`, it
restores exactly `rest0`. -/
theorem cleanupSlots_frees (slots : List (Nat × List Char)) (rest0 : List Nat) (hh : Heap)
    (hl : hh.live = (slots.map Prod.fst).reverse ++ rest0)
    (hnd : (slots.map Prod.fst).Nodup)
    (hdisj : ∀ i ∈ slots.map Prod.fst, i ∉ rest0) :
    (cleanupSlots slots hh).live = rest0 ∧ (cleanupSlots slots hh).next = hh.next := by
  induction slots generalizing rest0 hh with
  | nil => simpa [cleanupSlots] using hl
  | cons p rest ih =>
    simp only [List.map_cons, List.nodup_cons] at hnd
    have hp0 : p.1 ∉ (rest.map Prod.fst).reverse := by
      simpa using hnd.1
    have hstep : (hh.free p.1).live = (rest.map Prod.fst).reverse ++ rest0 := by
      simp only [Heap.free, hl, List.map_cons, List.reverse_cons, List.append_assoc,
        List.singleton_append]
      rw [List.erase_append_right _ hp0, List.erase_cons_head]
    have hrec := ih rest0 (hh.free p.1) hstep hnd.2
      (fun i hi => hdisj i (by simp [hi]))
    have hunf : cleanupSlots (p :: rest) hh = cleanupSlots rest (hh.free p.1) := by
      simp [cleanupSlots, List.foldl_cons]
    rw [hunf]
    exact ⟨hrec.1, hrec.2⟩

/-- When every item converts, no item fails. -/
theorem firstItemError_none (items : List PyVal)
    (hall : ∀ it ∈ items, ∃ s, itemToCString it = .ok s) :
    firstItemError items = none := by
  induction items with
  | nil => rfl
  | cons item rest ih =>
    obtain ⟨s, hs⟩ := hall item (by simp)
    simp only [firstItemError, hs]
    exact ih (fun it hit => hall it (by simp [hit]))

/-- Contract of the list/tuple body of `as_cstringlist`: the raised error is
the first failing item's error; the null pointer is never returned for a
list; when every item converts the fully built null-terminated array is
returned; and every error path frees exactly what the call allocated. -/
theorem cstringlistItems_spec (items : List PyVal) (h : Heap) (hwf : h.WF) :
    (∀ e, (cstringlistItems items h).1 = .error e ↔ firstItemError items = some e) ∧
    (cstringlistItems items h).1 ≠ .ok none ∧
    ((∀ it ∈ items, ∃ s, itemToCString it = .ok s) →
      ∃ slots : List (Nat × List Char),
        (cstringlistItems items h).1 = .ok (some (h.next, slots.map some ++ [none])) ∧
        slots.map Prod.snd = okContents items ∧ slots.length = items.length) ∧
    (∀ e, (cstringlistItems items h).1 = .error e →
      ((cstringlistItems items h).2).live = h.live) := by
  have h1def : h.alloc.2 = ⟨h.next + 1, h.next :: h.live⟩ := rfl
  obtain ⟨hb1, hb2, hb3⟩ := buildSlots_heap items h.alloc.2
  have herr := buildSlots_err items h.alloc.2
  have hmatch : cstringlistItems items h =
      (match (buildSlots items h.alloc.2).1 with
       | none => (Except.ok (some (h.next, (buildSlots items h.alloc.2).2.1.map some ++ [none])),
           (buildSlots items h.alloc.2).2.2)
       | some e => (Except.error e,
           (cleanupSlots (buildSlots items h.alloc.2).2.1
             (buildSlots items h.alloc.2).2.2).free h.next)) := rfl
  cases hfe : (buildSlots items h.alloc.2).1 with
  | none =>
    have hfi : firstItemError items = none := by rw [← herr, hfe]
    have hres : cstringlistItems items h =
        (.ok (some (h.next, (buildSlots items h.alloc.2).2.1.map some ++ [none])),
         (buildSlots items h.alloc.2).2.2) := by
      rw [hmatch, hfe]
    refine ⟨?_, ?_, ?_, ?_⟩
    · intro e
      rw [hres, hfi]
      simp
    · rw [hres]
      simp
    · intro hall
      refine ⟨(buildSlots items h.alloc.2).2.1, ?_, ?_⟩
      · rw [hres]
      · exact buildSlots_ok_contents items h.alloc.2 hfe
    · intro e he
      rw [hres] at he
      simp at he
  | some e0 =>
    have hfi : firstItemError items = some e0 := by rw [← herr, hfe]
    have hres : cstringlistItems items h =
        (.error e0,
         (cleanupSlots (buildSlots items h.alloc.2).2.1
            (buildSlots items h.alloc.2).2.2).free h.next) := by
      rw [hmatch, hfe]
    have hids : (buildSlots items h.alloc.2).2.1.map Prod.fst =
        List.range' (h.next + 1) (buildSlots items h.alloc.2).2.1.length := by
      rw [hb2, h1def]
    have hnd : ((buildSlots items h.alloc.2).2.1.map Prod.fst).Nodup := by
      rw [hids]
      exact List.nodup_range' _ _
    have hdisj : ∀ i ∈ (buildSlots items h.alloc.2).2.1.map Prod.fst,
        i ∉ (h.next :: h.live) := by
      intro i hi hmem
      rw [hids] at hi
      have hge := (List.mem_range'_1.mp hi).1
      rcases List.mem_cons.mp hmem with rfl | hmem2
      · omega
      · exact absurd (hwf i hmem2) (by omega)
    have hlive : ((buildSlots items h.alloc.2).2.2).live =
        ((buildSlots items h.alloc.2).2.1.map Prod.fst).reverse ++ (h.next :: h.live) := by
      rw [hb3, h1def]
    obtain ⟨hc1, _⟩ := cleanupSlots_frees (buildSlots items h.alloc.2).2.1
      (h.next :: h.live) (buildSlots items h.alloc.2).2.2 hlive hnd hdisj
    refine ⟨?_, ?_, ?_, ?_⟩
    · intro e
      rw [hres, hfi]
      simp [eq_comm]
    · rw [hres]
      simp
    · intro hall
      have hnone := firstItemError_none items hall
      rw [hfi] at hnone
      cases hnone
    · intro e _
      rw [hres]
      simp only [Heap.free, hc1]
      exact List.erase_cons_head _ _

/-- **C10**: `as_cstringlist` returns the null pointer exactly when the
wrapped object is `None`; returns a fully built null-terminated array when
the object is a list or tuple whose every item is a unicode or bytes string;
and raises in all other cases (`TypeError` for a non-list object or a
non-string item, `PyError` for an encoding failure), freeing every partially
allocated string and the array itself before the exception propagates, so
the heap's live list is exactly restored. -/
theorem as_cstringlist_correct (v : PyVal) (h : Heap) (hwf : h.WF) :
    ((as_cstringlist v h).1 = .ok none ↔ v = .none_) ∧
    (∀ items, v = .list_ items ∨ v = .tuple_ items →
      ((∀ it ∈ items, ∃ s, itemToCString it = .ok s) →
        ∃ slots : List (Nat × List Char),
          (as_cstringlist v h).1 = .ok (some (h.next, slots.map some ++ [none])) ∧
          slots.map Prod.snd = okContents items ∧ slots.length = items.length) ∧
      (∀ e, (as_cstringlist v h).1 = .error e ↔ firstItemError items = some e)) ∧
    ((v ≠ .none_ ∧ (∀ items, v ≠ .list_ items) ∧ (∀ items, v ≠ .tuple_ items)) →
      (as_cstringlist v h).1 = .error .typeError) ∧
    (∀ e, (as_cstringlist v h).1 = .error e → ((as_cstringlist v h).2).live = h.live) ∧
    (v = .none_ → (as_cstringlist v h).2 = h) := by
  cases v with
  | list_ items0 =>
    obtain ⟨hs1, hs2, hs3, hs4⟩ := cstringlistItems_spec items0 h hwf
    have hcall : as_cstringlist (PyVal.list_ items0) h = cstringlistItems items0 h := rfl
    refine ⟨?_, ?_, ?_, ?_, ?_⟩
    · rw [hcall]
      constructor
      · intro hok
        exact absurd hok hs2
      · intro he
        cases he
    · intro items hitems
      have : items = items0 := by
        rcases hitems with he | he <;> cases he <;> rfl
      subst this
      rw [hcall]
      exact ⟨hs3, hs1⟩
    · intro ⟨_, hnl, _⟩
      exact absurd rfl (hnl items0)
    · intro e he
      rw [hcall] at he ⊢
      exact hs4 e he
    · intro he
      cases he
  | tuple_ items0 =>
    obtain ⟨hs1, hs2, hs3, hs4⟩ := cstringlistItems_spec items0 h hwf
    have hcall : as_cstringlist (PyVal.tuple_ items0) h = cstringlistItems items0 h := rfl
    refine ⟨?_, ?_, ?_, ?_, ?_⟩
    · rw [hcall]
      constructor
      · intro hok
        exact absurd hok hs2
      · intro he
        cases he
    · intro items hitems
      have : items = items0 := by
        rcases hitems with he | he <;> cases he <;> rfl
      subst this
      rw [hcall]
      exact ⟨hs3, hs1⟩
    · intro ⟨_, _, hnt⟩
      exact absurd rfl (hnt items0)
    · intro e he
      rw [hcall] at he ⊢
      exact hs4 e he
    · intro he
      cases he
  | none_ =>
    refine ⟨by simp [as_cstringlist], ?_, ?_, ?_, fun _ => rfl⟩
    · intro items hitems
      rcases hitems with he | he <;> cases he
    · intro ⟨hn, _, _⟩
      exact absurd rfl hn
    · intro e he
      cases he
  | true_ =>
    refine ⟨by simp [as_cstringlist], ?_, fun _ => rfl, fun e _ => rfl, ?_⟩
    · intro items hitems
      rcases hitems with he | he <;> cases he
    · intro he
      cases he
  | false_ =>
    refine ⟨by simp [as_cstringlist], ?_, fun _ => rfl, fun e _ => rfl, ?_⟩
    · intro items hitems
      rcases hitems with he | he <;> cases he
    · intro he
      cases he
  | int_ n =>
    refine ⟨by simp [as_cstringlist], ?_, fun _ => rfl, fun e _ => rfl, ?_⟩
    · intro items hitems
      rcases hitems with he | he <;> cases he
    · intro he
      cases he
  | str_ s =>
    refine ⟨by simp [as_cstringlist], ?_, fun _ => rfl, fun e _ => rfl, ?_⟩
    · intro items hitems
      rcases hitems with he | he <;> cases he
    · intro he
      cases he
  | bytes_ s =>
    refine ⟨by simp [as_cstringlist], ?_, fun _ => rfl, fun e _ => rfl, ?_⟩
    · intro items hitems
      rcases hitems with he | he <;> cases he
    · intro he
      cases he
  | other_ =>
    refine ⟨by simp [as_cstringlist], ?_, fun _ => rfl, fun e _ => rfl, ?_⟩
    · intro items hitems
      rcases hitems with he | he <;> cases he
    · intro he
      cases he

/-- Witness for C10: a two-item list of a unicode and a bytes string builds
the full null-terminated array from the empty heap, and a failing conversion
(`TypeError` on a non-string item) leaves the heap's live list exactly as it
was (empty: nothing leaked). -/
theorem as_cstringlist_correct_witness :
    (∃ slots : List (Nat × List Char),
      (as_cstringlist (PyVal.list_ [PyVal.str_ (some ['a', 'b']), PyVal.bytes_ ['c']])
          ⟨0, []⟩).1 = .ok (some (0, slots.map some ++ [none])) ∧
      slots.map Prod.snd = okContents [PyVal.str_ (some ['a', 'b']), PyVal.bytes_ ['c']] ∧
      slots.length = 2) ∧
    ((as_cstringlist (PyVal.list_ [PyVal.bytes_ ['a'], PyVal.other_]) ⟨0, []⟩).2).live = [] := by
  constructor
  · exact ((as_cstringlist_correct
        (PyVal.list_ [PyVal.str_ (some ['a', 'b']), PyVal.bytes_ ['c']]) ⟨0, []⟩
        (fun i hi => absurd hi (List.not_mem_nil i))).2.1 _ (Or.inl rfl)).1
      (by
        intro it hit
        simp only [List.mem_cons, List.not_mem_nil, or_false] at hit
        rcases hit with rfl | rfl
        · exact ⟨['a', 'b'], rfl⟩
        · exact ⟨['c'], rfl⟩)
  · exact (as_cstringlist_correct (PyVal.list_ [PyVal.bytes_ ['a'], PyVal.other_]) ⟨0, []⟩
      (fun i hi => absurd hi (List.not_mem_nil i))).2.2.2.1 .typeError rfl

/-- `next_good_line_start` never runs past the end of the input. -/
theorem next_good_le (cfg : Config) (s : List Char) (b : Nat) :
    next_good_line_start cfg s b ≤ s.length := by
  unfold next_good_line_start
  split
  · exact Nat.le_refl _
  · split
    · omega
    · exact next_good_le cfg s (b + 1)
termination_by s.length - b
decreasing_by omega

/-- `next_good_line_start` only moves the candidate start forward. -/
theorem le_next_good (cfg : Config) (s : List Char) (b : Nat) (hb : b ≤ s.length) :
    b ≤ next_good_line_start cfg s b := by
  unfold next_good_line_start
  split
  · omega
  · split
    · exact Nat.le_refl b
    · have := le_next_good cfg s (b + 1) (by omega)
      omega
termination_by s.length - b
decreasing_by omega

/-- The position found by `next_good_line_start` is a safe line start: right
after an unquoted terminator, or the end of the input. -/
theorem next_good_good (cfg : Config) (s : List Char) (b : Nat) :
    isTermEnd cfg s (next_good_line_start cfg s b) = true ∨
      next_good_line_start cfg s b = s.length := by
  unfold next_good_line_start
  split
  · right
    rfl
  · split
    · left
      assumption
    · exact next_good_good cfg s (b + 1)
termination_by s.length - b
decreasing_by omega

/-- Minimality: every position from the candidate up to (excluding) the
found start is not a safe line start. -/
theorem next_good_min (cfg : Config) (s : List Char) (b q : Nat) (h1 : b ≤ q)
    (h2 : q < next_good_line_start cfg s b) :
    isTermEnd cfg s q = false ∧ q < s.length := by
  unfold next_good_line_start at h2
  split at h2
  · omega
  · split at h2
    · omega
    · rename_i hlen hterm
      by_cases hq : q = b
      · subst hq
        exact ⟨by simpa using hterm, by omega⟩
      · exact next_good_min cfg s (b + 1) q (by omega) h2
termination_by s.length - b
decreasing_by omega

/-- A safe line start lies within the input range. -/
theorem isTermEnd_le_length (cfg : Config) (s : List Char) (b : Nat)
    (h : isTermEnd cfg s b = true) : b ≤ s.length := by
  cases b with
  | zero => simp [isTermEnd] at h
  | succ q =>
    by_contra hlen
    push_neg at hlen
    have hq : s[q]? = none := List.getElem?_eq_none (by omega)
    simp [isTermEnd, hq] at h

/-- A safe line start is a fixed point of `next_good_line_start`. -/
theorem next_good_fix (cfg : Config) (s : List Char) (b : Nat)
    (h : isTermEnd cfg s b = true) : next_good_line_start cfg s b = b := by
  have hble := isTermEnd_le_length cfg s b h
  unfold next_good_line_start
  split
  · omega
  · rfl

/-- `next_good_line_start` is monotone in the candidate position. -/
theorem next_good_mono (cfg : Config) (s : List Char) (b b2 : Nat) (h : b ≤ b2) :
    next_good_line_start cfg s b ≤ next_good_line_start cfg s b2 := by
  by_contra hcon
  push_neg at hcon
  by_cases hb2 : b2 ≤ s.length
  · have hx1 : b ≤ next_good_line_start cfg s b2 :=
      le_trans h (le_next_good cfg s b2 hb2)
    have hx2 := next_good_min cfg s b (next_good_line_start cfg s b2) hx1 hcon
    rcases next_good_good cfg s b2 with hg | hg
    · rw [hx2.1] at hg
      cases hg
    · have := next_good_le cfg s b
      omega
  · have hx : next_good_line_start cfg s b2 = s.length := by
      unfold next_good_line_start
      rw [if_pos (by omega)]
    have := next_good_le cfg s b
    omega

/-- The record-end bookkeeping in `parseRowsBetween` is exactly
`next_good_line_start` of the position after the record start. -/
theorem recEnd_eq (cfg : Config) (s : List Char) (p : Nat) (hp : p < s.length) :
    max (p + 1) (next_good_line_start cfg s (p + 1)) =
      next_good_line_start cfg s (p + 1) :=
  Nat.max_eq_right (le_next_good cfg s (p + 1) (by omega))

/-- `parseRowsBetween` emits nothing once the cursor reaches the chunk bound
or the end of the input. -/
theorem parseRowsBetween_stop (cfg : Config) (s : List Char) (p b : Nat)
    (h : b ≤ p ∨ s.length ≤ p) : parseRowsBetween cfg s p b = [] := by
  unfold parseRowsBetween
  split
  · rfl
  · split
    · rfl
    · rename_i h1 h2
      rcases h with h | h
      · exact absurd h h1
      · exact absurd h h2

/-- One unfolding of `parseRowsBetween` on a live cursor. -/
theorem parseRowsBetween_step (cfg : Config) (s : List Char) (p b : Nat)
    (hb : p < b) (hp : p < s.length) :
    parseRowsBetween cfg s p b =
      rowOf cfg s p (next_good_line_start cfg s (p + 1)) ::
        parseRowsBetween cfg s (next_good_line_start cfg s (p + 1)) b := by
  conv_lhs => rw [parseRowsBetween]
  rw [if_neg (by omega), if_neg (by omega)]
  rw [recEnd_eq cfg s p hp]

/-- Chunk-splitting invariance: cutting the range `[p, c)` at any safe line
start `m` and concatenating the two worker parses reproduces the one-worker
parse of the whole range. -/
theorem parseRowsBetween_split (cfg : Config) (s : List Char) (d p m c : Nat)
    (hd : m - p ≤ d) (hpm : p ≤ m) (hmc : m ≤ c)
    (hgood : isTermEnd cfg s m = true ∨ s.length ≤ m) :
    parseRowsBetween cfg s p c =
      parseRowsBetween cfg s p m ++ parseRowsBetween cfg s m c := by
  induction d generalizing p with
  | zero =>
    have hpe : p = m := by omega
    subst hpe
    rw [parseRowsBetween_stop cfg s p p (Or.inl (Nat.le_refl p))]
    rfl
  | succ d ih =>
    by_cases hpe : p = m
    · subst hpe
      rw [parseRowsBetween_stop cfg s p p (Or.inl (Nat.le_refl p))]
      rfl
    · have hplt : p < m := by omega
      by_cases hplen : s.length ≤ p
      · rw [parseRowsBetween_stop cfg s p c (Or.inr hplen),
          parseRowsBetween_stop cfg s p m (Or.inr hplen),
          parseRowsBetween_stop cfg s m c (Or.inr (by omega))]
        rfl
      · push_neg at hplen
        have he_ge : p + 1 ≤ next_good_line_start cfg s (p + 1) :=
          le_next_good cfg s (p + 1) (by omega)
        have he_le_m : next_good_line_start cfg s (p + 1) ≤ m := by
          by_contra hcon
          push_neg at hcon
          have hmin := next_good_min cfg s (p + 1) m (by omega) hcon
          rcases hgood with hg | hg
          · rw [hmin.1] at hg
            cases hg
          · omega
        rw [parseRowsBetween_step cfg s p c (by omega) hplen,
          parseRowsBetween_step cfg s p m hplt hplen,
          ih (next_good_line_start cfg s (p + 1)) (by omega) he_le_m]
        simp

/-- One chunk per adjusted boundary plus the final chunk. -/
theorem chunkRowsList_length (cfg : Config) (s : List Char) (p : Nat) (as_ : List Nat) :
    (chunkRowsList cfg s p as_).length = as_.length + 1 := by
  induction as_ generalizing p with
  | nil => rfl
  | cons a rest ih => simp [chunkRowsList, ih]

/-- Concatenating the per-chunk parses over a monotone list of safe line
starts reproduces the one-worker parse of the whole remaining range. -/
theorem chunkRowsList_join (cfg : Config) (s : List Char) (as_ : List Nat) (p : Nat)
    (hgood : ∀ a ∈ as_, isTermEnd cfg s a = true ∨ s.length ≤ a)
    (hle : ∀ a ∈ as_, a ≤ s.length)
    (hchain : List.Chain' (· ≤ ·) (p :: as_)) :
    (chunkRowsList cfg s p as_).flatten = parseRowsBetween cfg s p s.length := by
  induction as_ generalizing p with
  | nil => simp [chunkRowsList]
  | cons a rest ih =>
    have hpa : p ≤ a := (List.chain'_cons.mp hchain).1
    have hrec := ih a (fun x hx => hgood x (by simp [hx])) (fun x hx => hle x (by simp [hx]))
      (List.chain'_cons.mp hchain).2
    simp only [chunkRowsList, List.flatten_cons, hrec]
    exact (parseRowsBetween_split cfg s (a - p) p a s.length (Nat.le_refl _) hpa
      (hle a (by simp)) (hgood a (by simp))).symm

/-- `find?` by key in a list with distinct keys returns the unique entry
with that key, wherever it sits. -/
theorem find?_key_of_mem {α : Type} (l : List (Nat × α)) (i : Nat) (x : α)
    (hnd : (l.map Prod.fst).Nodup) (hmem : (i, x) ∈ l) :
    l.find? (fun q => q.1 == i) = some (i, x) := by
  induction l with
  | nil => cases hmem
  | cons p rest ih =>
    simp only [List.map_cons, List.nodup_cons] at hnd
    rcases List.mem_cons.mp hmem with he | hmem2
    · rw [← he]
      exact List.find?_cons_of_pos rest (by simp [← he])
    · have hne : p.1 ≠ i := fun heq => hnd.1 (heq ▸ List.mem_map.mpr ⟨(i, x), hmem2, rfl⟩)
      rw [List.find?_cons_of_neg rest (by simpa using hne)]
      exact ih hnd.2 hmem2

/-- The coordinator's merge is completion-order independent: merging any
permutation of the indexed chunk results (any worker finish order) yields
the chunks concatenated in chunk-index order. -/
theorem mergeByIndex_perm_enum (chunks : List (List Row)) (done : List (Nat × List Row))
    (hperm : done.Perm chunks.enum) :
    mergeByIndex chunks.length done = some chunks.flatten := by
  have hkeysnd : (done.map Prod.fst).Nodup := by
    have h1 : (chunks.enum.map Prod.fst).Nodup := by
      rw [List.enum_map_fst]
      exact List.nodup_range _
    exact ((hperm.map Prod.fst).nodup_iff).mpr h1
  have hfind : ∀ i, i < chunks.length →
      done.find? (fun q => q.1 == i) = some (i, chunks[i]!) := by
    intro i hi
    have hi2 : i < chunks.enum.length := by simpa using hi
    have hgi : chunks[i]! = chunks[i] := getElem!_pos chunks i hi
    rw [hgi]
    apply find?_key_of_mem done i _ hkeysnd
    apply hperm.mem_iff.mpr
    have henum : chunks.enum[i] = (i, chunks[i]) := List.getElem_enum chunks i _
    rw [← henum]
    exact List.getElem_mem _
  have hslots : (List.range chunks.length).map (fun i => done.find? (fun q => q.1 == i)) =
      chunks.enum.map some := by
    apply List.ext_getElem (by simp)
    intro j h1 h2
    have hj : j < chunks.length := by simpa using h1
    rw [List.getElem_map, List.getElem_range, List.getElem_map, List.getElem_enum]
    rw [hfind j hj]
    rw [getElem!_pos chunks j hj]
  unfold mergeByIndex
  rw [hslots]
  have hall : ((chunks.enum.map some).all Option.isSome) = true := by
    simp only [List.all_eq_true, List.mem_map]
    intro x hx
    obtain ⟨y, _, rfl⟩ := hx
    rfl
  rw [if_pos hall]
  simp [List.enum_map_snd]

/-- **C1**: for every input and every (sorted) list of nominal chunk
boundaries, parsing as one chunk and parsing as N chunks (boundaries
resynchronized by `next_good_line_start`) produce identical row sequences in
the same order and identical inferred column types; and the merged row order
is always chunk-start-offset order — merging the per-chunk results in any
worker completion order (any permutation) yields the single-threaded row
sequence. -/
theorem chunked_parse_equals_single_parse (cfg : Config) (s : List Char) (bs : List Nat)
    (hsorted : List.Chain' (· ≤ ·) bs) :
    chunkedRows cfg s bs = wholeRows cfg s ∧
    inferTypes cfg (chunkedRows cfg s bs) = inferTypes cfg (wholeRows cfg s) ∧
    (∀ done, done.Perm (indexedChunks cfg s bs) →
      mergeByIndex (bs.length + 1) done = some (wholeRows cfg s)) := by
  have hgood : ∀ a ∈ adjustBoundaries cfg s bs, isTermEnd cfg s a = true ∨ s.length ≤ a := by
    intro a ha
    obtain ⟨b, hb, rfl⟩ := List.mem_map.mp ha
    rcases next_good_good cfg s b with hg | hg
    · exact Or.inl hg
    · exact Or.inr (by omega)
  have hle : ∀ a ∈ adjustBoundaries cfg s bs, a ≤ s.length := by
    intro a ha
    obtain ⟨b, hb, rfl⟩ := List.mem_map.mp ha
    exact next_good_le cfg s b
  have hmap : List.Chain' (· ≤ ·) (adjustBoundaries cfg s bs) :=
    List.chain'_map_of_chain' _ (fun a b hab => next_good_mono cfg s a b hab) hsorted
  have hchain0 : List.Chain' (· ≤ ·) (0 :: adjustBoundaries cfg s bs) := by
    cases hadj : adjustBoundaries cfg s bs with
    | nil => simp
    | cons a rest =>
      rw [hadj] at hmap
      exact List.chain'_cons.mpr ⟨Nat.zero_le a, hmap⟩
  have hjoin := chunkRowsList_join cfg s (adjustBoundaries cfg s bs) 0 hgood hle hchain0
  have hmain : chunkedRows cfg s bs = wholeRows cfg s := hjoin
  refine ⟨hmain, by rw [hmain], ?_⟩
  intro done hperm
  have hlen : (chunkRowsList cfg s 0 (adjustBoundaries cfg s bs)).length = bs.length + 1 := by
    rw [chunkRowsList_length]
    simp [adjustBoundaries]
  have hm := mergeByIndex_perm_enum (chunkRowsList cfg s 0 (adjustBoundaries cfg s bs))
    done hperm
  rw [hlen] at hm
  rw [hm]
  exact congrArg some hmain

/-- Witness for C1: the three-line demo input split at nominal boundary 4
parses identically to the single-chunk parse, and merging the (identity
permutation of the) indexed chunk results returns exactly the
single-threaded rows. -/
theorem chunked_parse_equals_single_parse_witness :
    chunkedRows demoConfig demoInput [4] = wholeRows demoConfig demoInput ∧
    mergeByIndex 2 (indexedChunks demoConfig demoInput [4]) =
      some (wholeRows demoConfig demoInput) := by
  have h := chunked_parse_equals_single_parse demoConfig demoInput [4] (by simp)
  exact ⟨h.1, h.2.2 _ (List.Perm.refl _)⟩

/-- Scanning one byte of the input extends the prefix quote state by one
automaton step. -/
theorem qstateAt_succ (cfg : Config) (s : List Char) (q : Nat) (h : q < s.length) :
    qstateAt cfg s (q + 1) = qstep cfg (qstateAt cfg s q) (s.get ⟨q, h⟩) := by
  unfold qstateAt
  rw [List.take_succ, List.getElem?_eq_getElem h, List.foldl_append]
  rfl

/-- Under a valid configuration, a line terminator byte seen outside a
quoted field leaves the scanner outside a quoted field, for every quote
rule. -/
theorem qstep_newline_unquoted (cfg : Config) (hv : cfg.Valid) (st : QState) (c : Char)
    (hc : isNewlineByte cfg c = true) (hst : st.inQuote = false) :
    (qstep cfg st c).inQuote = false := by
  have hcq : c ≠ cfg.quote := by
    intro he
    rw [he, hv.1] at hc
    cases hc
  unfold qstep
  cases hq2 : cfg.quoteRule <;> simp [hst, hcq]

/-- Characterization of a safe line start at a successor position. -/
theorem isTermEnd_succ (cfg : Config) (s : List Char) (q : Nat) :
    isTermEnd cfg s (q + 1) = true ↔
      ∃ c, s[q]? = some c ∧ isNewlineByte cfg c = true ∧
        (qstateAt cfg s q).inQuote = false := by
  cases hq : s[q]? with
  | none => simp [isTermEnd, hq]
  | some c => simp [isTermEnd, hq]

/-- **C2**: for every supported quote rule, `next_good_line_start` applied
to a chunk boundary that falls inside a quoted field returns a start
position past the entire quoted region: the result lies immediately after a
line terminator that is not inside a quoted field (or is the end of input),
and it is strictly beyond every position of the contiguous quoted run
containing the boundary — so no worker ever begins parsing mid-record. -/
theorem next_good_line_start_past_quoted (cfg : Config) (hv : cfg.Valid) (s : List Char)
    (b : Nat) (hb : b ≤ s.length) (hq : (qstateAt cfg s b).inQuote = true) :
    b ≤ next_good_line_start cfg s b ∧
    (isTermEnd cfg s (next_good_line_start cfg s b) = true ∨
      next_good_line_start cfg s b = s.length) ∧
    (∀ r, r < s.length → b ≤ r →
      (∀ t, t ≤ r → b ≤ t → (qstateAt cfg s t).inQuote = true) →
      r < next_good_line_start cfg s b) := by
  refine ⟨le_next_good cfg s b hb, next_good_good cfg s b, ?_⟩
  intro r hr hbr hall
  by_contra hcon
  push_neg at hcon
  have hbg : b ≤ next_good_line_start cfg s b := le_next_good cfg s b hb
  have hgq : (qstateAt cfg s (next_good_line_start cfg s b)).inQuote = true :=
    hall _ (by omega) hbg
  have hterm : isTermEnd cfg s (next_good_line_start cfg s b) = true := by
    rcases next_good_good cfg s b with ht | ht
    · exact ht
    · omega
  cases hgz : next_good_line_start cfg s b with
  | zero =>
    rw [hgz] at hterm
    simp [isTermEnd] at hterm
  | succ q =>
    rw [hgz] at hterm hgq
    obtain ⟨c, hqc, hnl, hnq⟩ := (isTermEnd_succ cfg s q).mp hterm
    obtain ⟨hqlt, hcval⟩ := List.getElem?_eq_some.mp hqc
    have hsucc := qstateAt_succ cfg s q hqlt
    rw [List.get_eq_getElem] at hsucc
    rw [hcval] at hsucc
    rw [hsucc, qstep_newline_unquoted cfg hv (qstateAt cfg s q) c hnl hnq] at hgq
    cases hgq

/-- Witness for C2: nominal boundary 3 of the quoted demo input falls
inside the quoted field spanning bytes 2-6 (which contains a line
terminator); the returned start is a safe line start strictly past every
position of that quoted run. -/
theorem next_good_line_start_past_quoted_witness :
    3 ≤ next_good_line_start demoConfig demoQuoted 3 ∧
    (isTermEnd demoConfig demoQuoted (next_good_line_start demoConfig demoQuoted 3) = true ∨
      next_good_line_start demoConfig demoQuoted 3 = demoQuoted.length) ∧
    (∀ r, r < demoQuoted.length → 3 ≤ r →
      (∀ t, t ≤ r → 3 ≤ t → (qstateAt demoConfig demoQuoted t).inQuote = true) →
      r < next_good_line_start demoConfig demoQuoted 3) :=
  next_good_line_start_past_quoted demoConfig ⟨by decide, by decide, by decide⟩
    demoQuoted 3 (by decide) (by decide)

/-- `splitFields` always produces at least one field. -/
theorem splitFields_ne_nil (cfg : Config) (st : QState) (cs : List Char) :
    splitFields cfg st cs ≠ [] := by
  cases cs with
  | nil => simp [splitFields]
  | cons c rest =>
    unfold splitFields
    split
    · simp
    · split
      · simp
      · split
        · simp
        · simp

/-- A byte that is not the quote character leaves the initial (unquoted)
scanner state unchanged, under every quote rule. -/
theorem qstep_qinit (cfg : Config) (c : Char) (hc : c ≠ cfg.quote) :
    qstep cfg qinit c = qinit := by
  unfold qstep
  cases hq2 : cfg.quoteRule <;> simp [qinit, hc]

/-- Prepending one field's benign bytes to a scan extends the first field of
the result. -/
theorem splitFields_append_field (cfg : Config) (f : List Char)
    (hbenign : ∀ c ∈ f, c ≠ cfg.sep ∧ isNewlineByte cfg c = false ∧ c ≠ cfg.quote)
    (tail : List Char) (g : List Char) (gs : List (List Char))
    (h : splitFields cfg qinit tail = g :: gs) :
    splitFields cfg qinit (f ++ tail) = (f ++ g) :: gs := by
  induction f with
  | nil => simpa using h
  | cons c cs ih =>
    obtain ⟨hc1, hc2, hc3⟩ := hbenign c (by simp)
    have hrec := ih (fun x hx => hbenign x (by simp [hx]))
    have hqs : qstep cfg qinit c = qinit := qstep_qinit cfg c hc3
    simp only [List.cons_append, splitFields, List.append_eq]
    rw [hqs, hrec]
    simp [qinit, hc1, hc2]

/-- A line terminator at the scan start ends the (empty) record. -/
theorem splitFields_newline (cfg : Config) (c : Char) (hc : isNewlineByte cfg c = true)
    (rest : List Char) : splitFields cfg qinit (c :: rest) = [[]] := by
  simp [splitFields, qinit, hc]

/-- A separator at the scan start closes an empty field. -/
theorem splitFields_sep (cfg : Config) (hv : cfg.Valid) (rest : List Char) :
    splitFields cfg qinit (cfg.sep :: rest) = [] :: splitFields cfg qinit rest := by
  simp [splitFields, qinit, hv.2.1]

/-- Scanning the line built from `k` benign fields joined by the separator
recovers exactly those `k` fields. -/
theorem splitFields_joinFields (cfg : Config) (hv : cfg.Valid) (fs : List (List Char))
    (hchars : ∀ f ∈ fs, ∀ c ∈ f, c ≠ cfg.sep ∧ isNewlineByte cfg c = false ∧ c ≠ cfg.quote)
    (hfs : fs ≠ []) :
    splitFields cfg qinit (joinFields cfg.sep fs ++ ['\n']) = fs := by
  induction fs with
  | nil => contradiction
  | cons f rest ih =>
    cases rest with
    | nil =>
      have hnl : splitFields cfg qinit ['\n'] = [[]] :=
        splitFields_newline cfg '\n' (by simp [isNewlineByte]) []
      have happ := splitFields_append_field cfg f (hchars f (by simp)) ['\n'] [] [] hnl
      simpa [joinFields] using happ
    | cons f2 rest2 =>
      have hrec := ih (fun x hx => hchars x (by simp [hx])) (by simp)
      have hsep := splitFields_sep cfg hv (joinFields cfg.sep (f2 :: rest2) ++ ['\n'])
      rw [hrec] at hsep
      have happ := splitFields_append_field cfg f (hchars f (by simp))
        (cfg.sep :: (joinFields cfg.sep (f2 :: rest2) ++ ['\n'])) [] (f2 :: rest2) hsep
      simpa [joinFields] using happ

/-- `countfields` on the line built from `k` benign fields returns exactly
`k`, including `k = 0` (immediate terminator) and a trailing empty field. -/
theorem countfieldsFrom_joinFields (cfg : Config) (hv : cfg.Valid) (fs : List (List Char))
    (hchars : ∀ f ∈ fs, ∀ c ∈ f, c ≠ cfg.sep ∧ isNewlineByte cfg c = false ∧ c ≠ cfg.quote)
    (hne : fs ≠ [[]]) :
    countfieldsFrom cfg (joinFields cfg.sep fs ++ ['\n']) = fs.length := by
  cases fs with
  | nil => simp [joinFields, countfieldsFrom, isNewlineByte]
  | cons f rest =>
    have hsplit := splitFields_joinFields cfg hv (f :: rest) hchars (by simp)
    cases f with
    | nil =>
      cases rest with
      | nil => exact absurd rfl hne
      | cons f2 r2 =>
        have hline : joinFields cfg.sep ([] :: f2 :: r2) ++ ['\n'] =
            cfg.sep :: (joinFields cfg.sep (f2 :: r2) ++ ['\n']) := by
          simp [joinFields]
        rw [hline] at hsplit ⊢
        simp [countfieldsFrom, hv.2.1, hsplit]
    | cons c cs =>
      obtain ⟨hc1, hc2, hc3⟩ := hchars (c :: cs) (by simp) c (by simp)
      have hhead : ∃ t, joinFields cfg.sep ((c :: cs) :: rest) ++ ['\n'] = c :: t := by
        cases rest with
        | nil => exact ⟨cs ++ ['\n'], by simp [joinFields]⟩
        | cons f2 r2 =>
          exact ⟨(cs ++ cfg.sep :: joinFields cfg.sep (f2 :: r2)) ++ ['\n'],
            by simp [joinFields]⟩
      obtain ⟨t, ht⟩ := hhead
      rw [ht] at hsplit ⊢
      simp [countfieldsFrom, hc2, hsplit]

/-- **C3**: for every line containing `k` separator-delimited benign fields
(none inside an unterminated quote), `countfields` returns exactly `k` —
covering `k = 0`, `k = 1`, many fields, and the trailing-empty-field case of
a line ending in a separator — and it writes no values: the context, in
particular its `target`, is returned unchanged. -/
theorem countfields_counts_fields (cfg : Config) (hv : cfg.Valid) (fs : List (List Char))
    (hchars : ∀ f ∈ fs, ∀ c ∈ f, c ≠ cfg.sep ∧ isNewlineByte cfg c = false ∧ c ≠ cfg.quote)
    (hne : fs ≠ [[]]) (tgt : List Field64) (anch : Nat) :
    (ParseContext.countfields cfg (joinFields cfg.sep fs ++ ['\n'])
        ⟨0, (joinFields cfg.sep fs ++ ['\n']).length, tgt, anch⟩).1 = fs.length ∧
    (ParseContext.countfields cfg (joinFields cfg.sep fs ++ ['\n'])
        ⟨0, (joinFields cfg.sep fs ++ ['\n']).length, tgt, anch⟩).2.target = tgt ∧
    (ParseContext.countfields cfg (joinFields cfg.sep fs ++ ['\n'])
        ⟨0, (joinFields cfg.sep fs ++ ['\n']).length, tgt, anch⟩).2 =
      ⟨0, (joinFields cfg.sep fs ++ ['\n']).length, tgt, anch⟩ := by
  refine ⟨?_, rfl, rfl⟩
  show countfieldsFrom cfg (((joinFields cfg.sep fs ++ ['\n']).take
      (joinFields cfg.sep fs ++ ['\n']).length).drop 0) = fs.length
  rw [List.take_length, List.drop_zero]
  exact countfieldsFrom_joinFields cfg hv fs hchars hne

/-- Witness for C3 at `k = 2` with a trailing empty field (the line
`"a,\n"`), at `k = 0` (a bare terminator) and at `k = 1`. -/
theorem countfields_counts_fields_witness :
    (ParseContext.countfields demoConfig (joinFields demoConfig.sep [['a'], []] ++ ['\n'])
        ⟨0, (joinFields demoConfig.sep [['a'], []] ++ ['\n']).length, [], 0⟩).1 = 2 ∧
    (ParseContext.countfields demoConfig
        (joinFields demoConfig.sep ([] : List (List Char)) ++ ['\n'])
        ⟨0, (joinFields demoConfig.sep ([] : List (List Char)) ++ ['\n']).length, [], 0⟩).1
      = 0 ∧
    (ParseContext.countfields demoConfig (joinFields demoConfig.sep [['x']] ++ ['\n'])
        ⟨0, (joinFields demoConfig.sep [['x']] ++ ['\n']).length, [], 0⟩).1 = 1 := by
  refine ⟨?_, ?_, ?_⟩
  · exact (countfields_counts_fields demoConfig ⟨by decide, by decide, by decide⟩
      [['a'], []] (by decide) (by decide) [] 0).1
  · exact (countfields_counts_fields demoConfig ⟨by decide, by decide, by decide⟩
      [] (by decide) (by decide) [] 0).1
  · exact (countfields_counts_fields demoConfig ⟨by decide, by decide, by decide⟩
      [['x']] (by decide) (by decide) [] 0).1

/-- `skip_whitespace` keeps the cursor within `[i, eof]`. -/
theorem skipWhite_bounds (cfg : Config) (input : List Char) (eofp i : Nat) (h : i ≤ eofp) :
    i ≤ skipWhite cfg input eofp i ∧ skipWhite cfg input eofp i ≤ eofp := by
  unfold skipWhite
  split
  · rename_i hlt
    split
    · rename_i c hc
      split
      · have := skipWhite_bounds cfg input eofp (i + 1) (by omega)
        omega
      · omega
    · omega
  · omega
termination_by eofp - i
decreasing_by omega

/-- The digit scanner keeps the cursor within `[i, eof]`. -/
theorem scanDigits_bounds (input : List Char) (eofp i acc : Nat) (h : i ≤ eofp) :
    i ≤ (scanDigits input eofp i acc).2 ∧ (scanDigits input eofp i acc).2 ≤ eofp := by
  unfold scanDigits
  split
  · rename_i hlt
    split
    · rename_i c hc
      split
      · rename_i hdig
        have := scanDigits_bounds input eofp (i + 1) (acc * 10 + (c.toNat - 48)) (by omega)
        omega
      · omega
    · omega
  · omega
termination_by eofp - i
decreasing_by omega

/-- Reading an optional sign keeps the cursor within `[i, eof]`. -/
theorem readSign_bounds (input : List Char) (eofp i : Nat) (h : i ≤ eofp) :
    i ≤ (readSign input eofp i).2 ∧ (readSign input eofp i).2 ≤ eofp := by
  unfold readSign
  split
  · rename_i hp
    simp only [isCharAt, Bool.and_eq_true, decide_eq_true_eq] at hp
    omega
  · split
    · rename_i _ hp
      simp only [isCharAt, Bool.and_eq_true, decide_eq_true_eq] at hp
      omega
    · omega

/-- The field-end scan keeps the cursor within `[i, eof]`, and when it comes
to rest outside a quoted region the stop position is an end-of-field
position (an unquoted separator or terminator, or `eof`). -/
theorem scanFieldEnd_bounds (cfg : Config) (input : List Char) (eofp : Nat) (st : QState)
    (i : Nat) (h : i ≤ eofp) :
    i ≤ (scanFieldEnd cfg input eofp st i).1 ∧
    (scanFieldEnd cfg input eofp st i).1 ≤ eofp ∧
    atEndOfField cfg input eofp (scanFieldEnd cfg input eofp st i).1 = true := by
  unfold scanFieldEnd
  split
  · rename_i hlt
    split
    · rename_i c hc
      split
      · rename_i hstop
        simp only [Bool.and_eq_true] at hstop
        refine ⟨Nat.le_refl i, by omega, ?_⟩
        simp only [atEndOfField, if_pos hlt, hc]
        simpa using hstop.2
      · have := scanFieldEnd_bounds cfg input eofp (qstep cfg st c) (i + 1) (by omega)
        exact ⟨by omega, this.2.1, this.2.2⟩
    · rename_i hc
      refine ⟨Nat.le_refl i, h, ?_⟩
      simp [atEndOfField, hlt, hc]
  · rename_i hge
    refine ⟨Nat.le_refl i, h, ?_⟩
    simp [atEndOfField, hge]
termination_by eofp - i
decreasing_by omega

/-- Literal matching returns a position within `eof` that is an end-of-field
position. -/
theorem litMatchEnd_bounds (cfg : Config) (input : List Char) (eofp i : Nat)
    (lits : List (List Char)) (j : Nat) (h : litMatchEnd cfg input eofp i lits = some j) :
    j ≤ eofp ∧ atEndOfField cfg input eofp j = true := by
  induction lits with
  | nil => cases h
  | cons lit rest ih =>
    unfold litMatchEnd at h
    split at h
    · rename_i hcond
      simp only [Bool.and_eq_true, decide_eq_true_eq] at hcond
      cases h
      exact ⟨hcond.1.1, hcond.2⟩
    · exact ih h

theorem parse_bool_ok (cfg : Config) (input : List Char) (ctx : ParseContext)
    (h : ctx.ch ≤ ctx.eof) : ParserOK cfg input ctx (parse_bool cfg input ctx) := by
  unfold parse_bool
  cases h1 : litMatchEnd cfg input ctx.eof ctx.ch cfg.boolTrueStrings with
  | some j =>
    have hb := litMatchEnd_bounds cfg input ctx.eof ctx.ch _ j h1
    show ParserOK cfg input ctx
      (true, { ctx with ch := j, target := ctx.target ++ [Field64.boolv true] })
    exact ⟨hb.1, rfl, fun _ => hb.2, fun hf => by simp at hf⟩
  | none =>
    cases h2 : litMatchEnd cfg input ctx.eof ctx.ch cfg.boolFalseStrings with
    | some j =>
      have hb := litMatchEnd_bounds cfg input ctx.eof ctx.ch _ j h2
      show ParserOK cfg input ctx
        (true, { ctx with ch := j, target := ctx.target ++ [Field64.boolv false] })
      exact ⟨hb.1, rfl, fun _ => hb.2, fun hf => by simp at hf⟩
    | none =>
      show ParserOK cfg input ctx (false, ctx)
      exact ⟨h, rfl, fun ht => by simp at ht, fun _ => rfl⟩

theorem parse_int_width_ok (mk : Int → Field64) (lo hi : Int) (cfg : Config)
    (input : List Char) (ctx : ParseContext) (h : ctx.ch ≤ ctx.eof) :
    ParserOK cfg input ctx (parse_int_width mk lo hi cfg input ctx) := by
  unfold parse_int_width
  split
  all_goals dsimp only []
  repeat' split
  all_goals (try exact ⟨h, rfl, fun ht => by simp at ht, fun _ => rfl⟩)
  all_goals
    rename_i hcond
  all_goals
    simp only [Bool.and_eq_true, decide_eq_true_eq] at hcond
  all_goals
    first
      | exact ⟨(skipWhite_bounds cfg input ctx.eof _
            (scanDigits_bounds input ctx.eof _ 0
              (readSign_bounds input ctx.eof _
                (skipWhite_bounds cfg input ctx.eof ctx.ch h).2).2).2).2, rfl,
          fun _ => hcond.1.1.2, fun hf => by simp at hf⟩
      | exact ⟨(scanDigits_bounds input ctx.eof _ 0
            (readSign_bounds input ctx.eof _ h).2).2, rfl,
          fun _ => hcond.1.1.2, fun hf => by simp at hf⟩

theorem parse_double_ok (cfg : Config) (input : List Char) (ctx : ParseContext)
    (h : ctx.ch ≤ ctx.eof) : ParserOK cfg input ctx (parse_double cfg input ctx) := by
  unfold parse_double
  dsimp only []
  set i0 := if cfg.strip_whitespace = true then skipWhite cfg input ctx.eof ctx.ch else ctx.ch
    with hi0
  set sg := readSign input ctx.eof i0 with hsg
  set ip := scanDigits input ctx.eof sg.2 0 with hip
  set hasDec := isCharAt input ctx.eof ip.2 cfg.dec with hdec
  set fr := if hasDec = true then scanDigits input ctx.eof (ip.2 + 1) 0 else ((0 : Nat), ip.2)
    with hfr
  set flen := if hasDec = true then fr.2 - (ip.2 + 1) else 0 with hflen
  set hasExp := (isCharAt input ctx.eof fr.2 'e' || isCharAt input ctx.eof fr.2 'E') with hexp
  set es := if hasExp = true then readSign input ctx.eof (fr.2 + 1) else (false, fr.2) with hes
  set eg := if hasExp = true then scanDigits input ctx.eof es.2 0 else ((0 : Nat), es.2)
    with heg
  set i5 := if cfg.strip_whitespace = true then skipWhite cfg input ctx.eof eg.2 else eg.2
    with hi5
  have bi0 : i0 ≤ ctx.eof := by
    rw [hi0]
    split
    · exact (skipWhite_bounds cfg input ctx.eof ctx.ch h).2
    · exact h
  have bsg : sg.2 ≤ ctx.eof := by
    rw [hsg]
    exact (readSign_bounds input ctx.eof i0 bi0).2
  have bip : ip.2 ≤ ctx.eof := by
    rw [hip]
    exact (scanDigits_bounds input ctx.eof sg.2 0 bsg).2
  have bfr : fr.2 ≤ ctx.eof := by
    rw [hfr]
    split
    · rename_i hd
      rw [hdec] at hd
      simp only [isCharAt, Bool.and_eq_true, decide_eq_true_eq] at hd
      exact (scanDigits_bounds input ctx.eof (ip.2 + 1) 0 (by omega)).2
    · exact bip
  have bes : es.2 ≤ ctx.eof := by
    rw [hes]
    split
    · rename_i hx
      rw [hexp] at hx
      simp only [Bool.or_eq_true, isCharAt, Bool.and_eq_true, decide_eq_true_eq] at hx
      have hfr1 : fr.2 < ctx.eof := by
        rcases hx with h1 | h1
        · exact h1.1
        · exact h1.1
      exact (readSign_bounds input ctx.eof (fr.2 + 1) (by omega)).2
    · exact bfr
  have beg : eg.2 ≤ ctx.eof := by
    rw [heg]
    split
    · exact (scanDigits_bounds input ctx.eof es.2 0 bes).2
    · exact bes
  have bi5 : i5 ≤ ctx.eof := by
    rw [hi5]
    split
    · exact (skipWhite_bounds cfg input ctx.eof eg.2 beg).2
    · exact beg
  by_cases hc : ((decide (sg.2 < ip.2) || decide (0 < flen)) && (!hasExp || decide (es.2 < eg.2))
      && atEndOfField cfg input ctx.eof i5) = true
  · rw [if_pos hc]
    simp only [Bool.and_eq_true] at hc
    exact ⟨bi5, rfl, fun _ => hc.2, fun hf => by simp at hf⟩
  · rw [if_neg hc]
    exact ⟨h, rfl, fun ht => by simp at ht, fun _ => rfl⟩

theorem parse_string_ok (cfg : Config) (input : List Char) (ctx : ParseContext)
    (h : ctx.ch ≤ ctx.eof) : ParserOK cfg input ctx (parse_string cfg input ctx) := by
  unfold parse_string
  dsimp only []
  have hb := scanFieldEnd_bounds cfg input ctx.eof qinit ctx.ch h
  split
  · exact ⟨h, rfl, fun ht => by simp at ht, fun _ => rfl⟩
  · exact ⟨hb.2.1, rfl, fun _ => hb.2.2, fun hf => by simp at hf⟩

/-- **C4**: for every `ParseContext` whose cursor respects its bound and
every field parser of the parser set, the cursor `ch` never exceeds `eof`
(nor is `eof` changed), and the call either succeeds leaving `ch` at a valid
next-field or next-line position (`at_end_of_field`: an unquoted separator,
a line terminator, or `eof`), or signals failure leaving the context — `ch`
in particular — exactly where it was. -/
theorem field_parser_cursor_invariant (k : ParserKind) (cfg : Config) (input : List Char)
    (ctx : ParseContext) (h : ctx.ch ≤ ctx.eof) :
    (runParser k cfg input ctx).2.ch ≤ ctx.eof ∧
    (runParser k cfg input ctx).2.eof = ctx.eof ∧
    ((runParser k cfg input ctx).1 = true →
      atEndOfField cfg input ctx.eof (runParser k cfg input ctx).2.ch = true) ∧
    ((runParser k cfg input ctx).1 = false → (runParser k cfg input ctx).2 = ctx) := by
  cases k with
  | boolk => exact parse_bool_ok cfg input ctx h
  | int32k => exact parse_int_width_ok _ _ _ cfg input ctx h
  | int64k => exact parse_int_width_ok _ _ _ cfg input ctx h
  | float64k => exact parse_double_ok cfg input ctx h
  | strk => exact parse_string_ok cfg input ctx h

/-- Witness for C4: the int32 parser run on the two-byte field `42`. -/
theorem field_parser_cursor_invariant_witness :
    (runParser .int32k demoConfig ['4', '2'] ⟨0, 2, [], 0⟩).2.ch ≤ 2 ∧
    (runParser .int32k demoConfig ['4', '2'] ⟨0, 2, [], 0⟩).2.eof = 2 ∧
    ((runParser .int32k demoConfig ['4', '2'] ⟨0, 2, [], 0⟩).1 = true →
      atEndOfField demoConfig ['4', '2'] 2
        (runParser .int32k demoConfig ['4', '2'] ⟨0, 2, [], 0⟩).2.ch = true) ∧
    ((runParser .int32k demoConfig ['4', '2'] ⟨0, 2, [], 0⟩).1 = false →
      (runParser .int32k demoConfig ['4', '2'] ⟨0, 2, [], 0⟩).2 = ⟨0, 2, [], 0⟩) :=
  field_parser_cursor_invariant .int32k demoConfig ['4', '2'] ⟨0, 2, [], 0⟩ (by decide)

/-- The `end_NA_string` fold is monotone, dominates every matching marker,
and returns either its seed or a matching marker's length. -/
theorem naFold_spec (raw : List Char) (l : List (List Char)) (best : Nat) :
    best ≤ l.foldl
      (fun b na => if na.isPrefixOf raw && decide (b < na.length) then na.length else b) best ∧
    (∀ na ∈ l, na.isPrefixOf raw = true →
      na.length ≤ l.foldl
        (fun b na => if na.isPrefixOf raw && decide (b < na.length) then na.length else b) best) ∧
    (l.foldl (fun b na => if na.isPrefixOf raw && decide (b < na.length) then na.length else b)
        best = best ∨
      ∃ na ∈ l, na.isPrefixOf raw = true ∧
        l.foldl (fun b na => if na.isPrefixOf raw && decide (b < na.length) then na.length else b)
          best = na.length) := by
  induction l generalizing best with
  | nil => exact ⟨Nat.le_refl _, fun na h => absurd h (List.not_mem_nil na), Or.inl rfl⟩
  | cons na0 rest ih =>
    simp only [List.foldl_cons]
    by_cases hc : (na0.isPrefixOf raw && decide (best < na0.length)) = true
    · simp only [Bool.and_eq_true, decide_eq_true_eq] at hc
      rw [if_pos (by simp [hc.1, hc.2])]
      obtain ⟨ih1, ih2, ih3⟩ := ih na0.length
      refine ⟨by omega, ?_, ?_⟩
      · intro na hmem hpre
        rcases List.mem_cons.mp hmem with rfl | hmem2
        · exact ih1
        · exact ih2 na hmem2 hpre
      · rcases ih3 with he | ⟨na, hmem, hpre, he⟩
        · exact Or.inr ⟨na0, by simp, hc.1, he⟩
        · exact Or.inr ⟨na, by simp [hmem], hpre, he⟩
    · rw [if_neg hc]
      obtain ⟨ih1, ih2, ih3⟩ := ih best
      refine ⟨ih1, ?_, ?_⟩
      · intro na hmem hpre
        rcases List.mem_cons.mp hmem with rfl | hmem2
        · simp only [Bool.and_eq_true, decide_eq_true_eq, not_and] at hc
          have := hc hpre
          omega
        · exact ih2 na hmem2 hpre
      · rcases ih3 with he | ⟨na, hmem, hpre, he⟩
        · exact Or.inl he
        · exact Or.inr ⟨na, by simp [hmem], hpre, he⟩

/-- For a nonempty field, `end_NA_string` consumes the whole field exactly
when the field is literally one of the configured NA markers. -/
theorem end_NA_string_eq_length_iff (cfg : Config) (raw : List Char) (hne : raw ≠ []) :
    end_NA_string cfg raw = raw.length ↔ raw ∈ cfg.NAstrings := by
  obtain ⟨h1, h2, h3⟩ := naFold_spec raw cfg.NAstrings 0
  have hdef : end_NA_string cfg raw = cfg.NAstrings.foldl
      (fun b na => if na.isPrefixOf raw && decide (b < na.length) then na.length else b) 0 := rfl
  rw [hdef]
  constructor
  · intro he
    rcases h3 with h0 | ⟨na, hmem, hpre, hlen⟩
    · rw [he] at h0
      have : raw = [] := List.length_eq_zero.mp h0
      exact absurd this hne
    · rw [he] at hlen
      have hp := List.isPrefixOf_iff_prefix.mp hpre
      have hna : na = raw := hp.eq_of_length hlen.symm
      rw [← hna]
      exact hmem
  · intro hmem
    have hub := h2 raw hmem (List.isPrefixOf_iff_prefix.mpr (List.prefix_refl raw))
    have hle : cfg.NAstrings.foldl
        (fun b na => if na.isPrefixOf raw && decide (b < na.length) then na.length else b) 0
          ≤ raw.length := by
      rcases h3 with h0 | ⟨na, _, hpre, hlen⟩
      · rw [h0]
        omega
      · rw [hlen]
        exact (List.isPrefixOf_iff_prefix.mp hpre).length_le
    omega

/-- **C5**: a raw field exactly equal to a configured NA marker parses to
the missing sentinel regardless of the target column type; a blank field
parses to the missing sentinel exactly when `blank_is_na` is set, and
otherwise yields the type's empty value where representable (the empty
string for the string type) and fails for the numeric types; every other
field is handed to the target type's parser. -/
theorem na_detection (cfg : Config) (k : ParserKind) (raw : List Char) :
    (raw ∈ cfg.NAstrings → raw ≠ [] → parseFieldValue cfg k raw = some .missing) ∧
    (raw = [] → cfg.blank_is_na = true → parseFieldValue cfg k raw = some .missing) ∧
    (raw = [] → cfg.blank_is_na = false →
      (k = .strk → parseFieldValue cfg k raw = some (.str [])) ∧
      (k = .boolk ∨ k = .int32k ∨ k = .int64k ∨ k = .float64k →
        parseFieldValue cfg k raw = none)) ∧
    (raw ≠ [] → raw ∉ cfg.NAstrings → parseFieldValue cfg k raw = typeParseField k cfg raw) := by
  refine ⟨?_, ?_, ?_, ?_⟩
  · intro hmem hne
    have hlen : raw.length ≠ 0 := by simpa using hne
    have hna := (end_NA_string_eq_length_iff cfg raw hne).mpr hmem
    simp [parseFieldValue, hlen, hna]
  · intro hraw hb
    subst hraw
    simp [parseFieldValue, hb]
  · intro hraw hb
    subst hraw
    refine ⟨?_, ?_⟩
    · intro hk
      subst hk
      simp [parseFieldValue, hb]
    · intro hk
      rcases hk with hk | hk | hk | hk <;> subst hk <;> simp [parseFieldValue, hb]
  · intro hne hnotmem
    have hlen : raw.length ≠ 0 := by simpa using hne
    have hna : end_NA_string cfg raw ≠ raw.length := fun he =>
      hnotmem ((end_NA_string_eq_length_iff cfg raw hne).mp he)
    simp [parseFieldValue, hlen, hna]

/-- Witness for C5: the field `NA` parses to the missing sentinel under the
int32 target type; a blank field with `blank_is_na` unset yields the empty
string under the string type and fails under the int32 type. -/
theorem na_detection_witness :
    parseFieldValue demoConfig .int32k ['N', 'A'] = some .missing ∧
    parseFieldValue demoConfig .strk [] = some (.str []) ∧
    parseFieldValue demoConfig .int32k [] = none := by
  refine ⟨?_, ?_, ?_⟩
  · exact (na_detection demoConfig .int32k ['N', 'A']).1 (by decide) (by decide)
  · exact ((na_detection demoConfig .strk []).2.2.1 rfl (by decide)).1 rfl
  · exact ((na_detection demoConfig .int32k []).2.2.1 rfl (by decide)).2 (Or.inr (Or.inl rfl))

/-- Scanning an all-digit remainder accumulates its exact decimal value and
stops at the end of input. -/
theorem scanDigits_all (input : List Char) (i acc : Nat) (h : i ≤ input.length)
    (hd : ∀ c ∈ input.drop i, c.isDigit = true) :
    scanDigits input input.length i acc =
      ((input.drop i).foldl (fun a c => a * 10 + (c.toNat - 48)) acc, input.length) := by
  unfold scanDigits
  split
  · rename_i hlt
    rw [List.getElem?_eq_getElem hlt]
    have hdrop : input.drop i = input[i] :: input.drop (i + 1) := List.drop_eq_getElem_cons hlt
    have hdig : input[i].isDigit = true := hd input[i] (by rw [hdrop]; exact List.mem_cons_self _ _)
    dsimp only []
    rw [if_pos hdig]
    have hrec := scanDigits_all input (i + 1) (acc * 10 + (input[i].toNat - 48)) (by omega)
      (fun c hc => hd c (by rw [hdrop]; exact List.mem_cons_of_mem _ hc))
    rw [hrec, hdrop, List.foldl_cons]
  · rename_i hge
    have hi : i = input.length := by omega
    have : input.drop i = [] := List.drop_eq_nil_of_le (by omega)
    rw [this]
    simp [hi]
termination_by input.length - i
decreasing_by omega

/-- Reading a sign at a digit byte does not move the cursor. -/
theorem readSign_digit (input : List Char) (eofp i : Nat) (c : Char)
    (hc : input[i]? = some c) (hd : c.isDigit = true) :
    readSign input eofp i = (false, i) := by
  have h1 : c ≠ '-' := by
    intro he
    subst he
    exact absurd hd (by decide)
  have h2 : c ≠ '+' := by
    intro he
    subst he
    exact absurd hd (by decide)
  have hm : isCharAt input eofp i '-' = false := by
    simp [isCharAt, hc, h1]
  have hp : isCharAt input eofp i '+' = false := by
    simp [isCharAt, hc, h2]
  simp [readSign, hm, hp]

/-- **C6**: for every run of ASCII digits whose value overflows the target
integer width, the integer field parser signals failure and leaves the
context unchanged — it never writes a wrapped-around value — while an
in-range run parses successfully to its exact value; so the caller can retry
the field as a wider type, a double, or a string. -/
theorem int_parser_overflow_fails (cfg : Config) (hst : cfg.strip_whitespace = false)
    (ds : List Char) (hne : ds ≠ []) (hd : ∀ c ∈ ds, c.isDigit = true)
    (tgt : List Field64) (anch : Nat) :
    (2 ^ 31 ≤ (digitsVal ds : Int) →
      runParser .int32k cfg ds ⟨0, ds.length, tgt, anch⟩ = (false, ⟨0, ds.length, tgt, anch⟩)) ∧
    (2 ^ 63 ≤ (digitsVal ds : Int) →
      runParser .int64k cfg ds ⟨0, ds.length, tgt, anch⟩ = (false, ⟨0, ds.length, tgt, anch⟩)) ∧
    ((digitsVal ds : Int) < 2 ^ 31 →
      runParser .int32k cfg ds ⟨0, ds.length, tgt, anch⟩ =
        (true, ⟨ds.length, ds.length, tgt ++ [.int32 (digitsVal ds)], anch⟩)) := by
  obtain ⟨d0, rest, rfl⟩ : ∃ d0 rest, ds = d0 :: rest := by
    cases ds with
    | nil => exact absurd rfl hne
    | cons a b => exact ⟨a, b, rfl⟩
  have hq0 : (d0 :: rest)[0]? = some d0 := List.getElem?_cons_zero
  have hsign : readSign (d0 :: rest) (d0 :: rest).length 0 = (false, 0) :=
    readSign_digit (d0 :: rest) (d0 :: rest).length 0 d0 hq0 (hd d0 (by simp))
  have hscan : scanDigits (d0 :: rest) (d0 :: rest).length 0 0 =
      (digitsVal (d0 :: rest), (d0 :: rest).length) := by
    have := scanDigits_all (d0 :: rest) 0 0 (by omega) (by simpa using hd)
    simpa [digitsVal] using this
  have hend : atEndOfField cfg (d0 :: rest) (d0 :: rest).length (d0 :: rest).length = true := by
    simp [atEndOfField]
  have hpos : (0 : Nat) < (d0 :: rest).length := by simp
  have hnonneg : (0 : Int) ≤ (digitsVal (d0 :: rest) : Int) := Int.natCast_nonneg _
  refine ⟨?_, ?_, ?_⟩
  · intro hover
    show parse_int_width Field64.int32 (-(2 ^ 31)) (2 ^ 31 - 1) cfg (d0 :: rest)
      ⟨0, (d0 :: rest).length, tgt, anch⟩ = _
    unfold parse_int_width
    dsimp only []
    rw [hst]
    simp only [Bool.false_eq_true, if_false, hsign, hscan]
    have hno : ¬ ((digitsVal (d0 :: rest) : Int) ≤ 2 ^ 31 - 1) := by omega
    simp only [hno]
    simp [hno]
  · intro hover
    show parse_int_width Field64.int64 (-(2 ^ 63)) (2 ^ 63 - 1) cfg (d0 :: rest)
      ⟨0, (d0 :: rest).length, tgt, anch⟩ = _
    unfold parse_int_width
    dsimp only []
    rw [hst]
    simp only [Bool.false_eq_true, if_false, hsign, hscan]
    have hno : ¬ ((digitsVal (d0 :: rest) : Int) ≤ 2 ^ 63 - 1) := by omega
    simp [hno]
    intro _ _
    omega
  · intro hin
    show parse_int_width Field64.int32 (-(2 ^ 31)) (2 ^ 31 - 1) cfg (d0 :: rest)
      ⟨0, (d0 :: rest).length, tgt, anch⟩ = _
    unfold parse_int_width
    dsimp only []
    rw [hst]
    simp only [Bool.false_eq_true, if_false, hsign, hscan]
    have hyes : (digitsVal (d0 :: rest) : Int) ≤ 2 ^ 31 - 1 := by omega
    have hlo : -(2 ^ 31 : Int) ≤ (digitsVal (d0 :: rest) : Int) := by omega
    simp [hyes, hlo]
    exact ⟨by simpa using hend, by omega, by omega⟩

/-- Witness for C6: the 11-digit run `22000000000` (value `2.2e10`, above
`2^31 - 1` but below `2^63 - 1`) fails as int32 and stays untouched, while
the same context parses it as int64; the run `42` parses in-range. -/
theorem int_parser_overflow_fails_witness :
    runParser .int32k demoConfig
        ['2', '2', '0', '0', '0', '0', '0', '0', '0', '0', '0']
        ⟨0, 11, [], 0⟩ =
      (false, ⟨0, 11, [], 0⟩) ∧
    runParser .int32k demoConfig ['4', '2'] ⟨0, 2, [], 0⟩ =
      (true, ⟨2, 2, [Field64.int32 (digitsVal ['4', '2'])], 0⟩) := by
  constructor
  · exact (int_parser_overflow_fails demoConfig rfl
      ['2', '2', '0', '0', '0', '0', '0', '0', '0', '0', '0'] (by decide) (by decide) [] 0).1
      (by decide)
  · exact (int_parser_overflow_fails demoConfig rfl ['4', '2'] (by decide) (by decide)
      [] 0).2.2 (by decide)

/-- Every coordinator transition preserves the output-visibility
invariant. -/
theorem coStep_inv (st : CoState) (ev : CoEvent) (h : CoInv st) : CoInv (coStep st ev) := by
  obtain ⟨ph, n, comp, mrg, snk⟩ := st
  cases ph <;> cases ev <;>
    (try simp_all [coStep, coFail]) <;>
    (try split) <;>
    (try simp_all [CoInv]) <;>
    (try simp_all [CoInv, coStep, coFail])

/-- **C7**: a coordinator run that ends in the Failed state (for any error,
from any non-terminal state) exposes no partially-merged output: the merged
buffer has been discarded and the sink has observed nothing; and whenever
the sink has observed output at all, the coordinator reached Done and the
output is the complete merge of all reported chunks in chunk-index order. -/
theorem failed_run_no_partial_output (evs : List CoEvent) :
    ((coRun evs).phase = .failed →
      (coRun evs).sinkRows = none ∧ (coRun evs).mergedRows = none) ∧
    (∀ r, (coRun evs).sinkRows = some r →
      (coRun evs).phase = .done ∧
      mergeByIndex (coRun evs).nchunks (coRun evs).completed = some r) := by
  have hinv : CoInv (coRun evs) := by
    have hall : ∀ (l : List CoEvent) (st : CoState), CoInv st → CoInv (l.foldl coStep st) := by
      intro l
      induction l with
      | nil => exact fun st h => h
      | cons e rest ih => exact fun st h => ih (coStep st e) (coStep_inv st e h)
    exact hall evs coInit (by simp [CoInv, coInit])
  constructor
  · intro hph
    unfold CoInv at hinv
    rw [hph] at hinv
    exact ⟨hinv.2, hinv.1⟩
  · intro r hr
    unfold CoInv at hinv
    cases hph : (coRun evs).phase <;> rw [hph] at hinv
    case merged =>
      rw [hinv.2] at hr
      cases hr
    case done =>
      rw [hinv.1] at hr
      rw [← hinv.2, hr]
      exact ⟨rfl, rfl⟩
    all_goals
      rw [hinv.2] at hr
      cases hr

/-- Witness for C7: a run that fails after dispatch exposes nothing to the
sink and discards the merged buffer; a complete successful run hands the
sink exactly the index-ordered merge. -/
theorem failed_run_no_partial_output_witness :
    ((coRun [.sample, .split 1, .chunkDone 0 [[['a']]], .failure]).sinkRows = none ∧
      (coRun [.sample, .split 1, .chunkDone 0 [[['a']]], .failure]).mergedRows = none) ∧
    ((coRun [.sample, .split 1, .chunkDone 0 [[['a']]], .mergeAll, .emit]).phase = .done ∧
      mergeByIndex (coRun [.sample, .split 1, .chunkDone 0 [[['a']]], .mergeAll, .emit]).nchunks
          (coRun [.sample, .split 1, .chunkDone 0 [[['a']]], .mergeAll, .emit]).completed =
        some [[['a']]]) :=
  ⟨(failed_run_no_partial_output [.sample, .split 1, .chunkDone 0 [[['a']]], .failure]).1
      (by decide),
   (failed_run_no_partial_output [.sample, .split 1, .chunkDone 0 [[['a']]], .mergeAll, .emit]).2
      [[['a']]] (by decide)⟩

end DT
